import Mathlib

/-!
# SharpBCI speller plugin, CCA library (`CCA/main.cpp`)

A shallow embedding of the matrix repository, the QR cache and the two scoring
engines of `main.cpp`, followed by theorems about them.

Conventions of the embedding

* `unsigned long long` values are natural numbers; the pre-increment `++index`
  is `(index + 1) % 2 ^ 64`.
* A `double` is a value of `F64`: a rational, an infinity or NaN.  Comparison
  follows IEEE 754 (every comparison with NaN is false).  Rounding is not
  modelled: the arithmetic operations are fields of `Kernels`, as are the
  decompositions of the Eigen library, which is not part of this repository.
  The sign of zero is not modelled either.
* `std::map` is a partial function from keys to values.
* The three globals `index`, `matrices`, `qr_matrices` form a `State` that
  every exported function receives and returns.  The mutex is not modelled:
  calls are sequential.
* `throw std::exception("not found")` is `Except.error Exn.not_found`.
* Eigen asserts `lhs.cols() == rhs.rows()` when a product is formed.  The
  product of `cca_svd` can receive operands of any row counts, and there the
  assertion is part of the embedding: when it fails the call ends in
  `Fault.invalid_product`, which stands for the abort of the process, or for
  undefined behaviour in a build without assertions.
* The `while (true)` loop of `alloc_matrix` is run with fuel; it probes ids
  cyclically, so `2 ^ 64` iterations visit every id.
-/

namespace SharpBCI

/-! ## Doubles -/

/-- A `double`: NaN, the two infinities, or a finite value. -/
inductive F64 where
  | nan : F64
  | ninf : F64
  | fin (q : ℚ) : F64
  | pinf : F64
  deriving DecidableEq

namespace F64

instance : Inhabited F64 := ⟨F64.fin 0⟩

/-- The C++ comparison `a < b` on doubles. -/
def lt : F64 → F64 → Bool
  | nan, _ => false
  | _, nan => false
  | ninf, ninf => false
  | ninf, _ => true
  | _, ninf => false
  | pinf, _ => false
  | fin _, pinf => true
  | fin a, fin b => decide (a < b)

/-- The C++ comparison `a <= b` on doubles. -/
def le : F64 → F64 → Bool
  | nan, _ => false
  | _, nan => false
  | ninf, _ => true
  | _, ninf => false
  | _, pinf => true
  | pinf, _ => false
  | fin a, fin b => decide (a ≤ b)

/-- The C++ comparison `a != 0` on a double, as used by Eigen `count()`. -/
def isNonzero : F64 → Bool
  | fin q => decide (q ≠ 0)
  | _ => true

/-- The value of `std::max(a, b)`, which is `(a < b) ? b : a`. -/
def max (a b : F64) : F64 := if lt a b then b else a

/-- The value of `std::min(a, b)`, which is `(b < a) ? b : a`. -/
def min (a b : F64) : F64 := if lt b a then b else a

end F64

/-! ## Dense matrices and vectors -/

/-- An Eigen `VectorXd`: its coefficients in order. -/
abbrev VectorXd := List F64

/-- An Eigen `MatrixXd`: dimensions and coefficients in column-major storage
order, so that coefficient `(r, c)` sits at position `c * rows + r`. -/
structure MatrixXd where
  rows : Nat
  cols : Nat
  data : List F64
  deriving DecidableEq

namespace MatrixXd

instance : Inhabited MatrixXd := ⟨⟨0, 0, []⟩⟩

/-- The default-constructed `MatrixXd matrix;` of size 0 by 0. -/
def empty : MatrixXd := ⟨0, 0, []⟩

/-- The effect of `mat.resize(rows, cols)` on a fresh matrix: `rows * cols`
coefficients whose values are not initialised; `junk` stands for them. -/
def resize (junk : F64) (rows cols : Nat) : MatrixXd :=
  ⟨rows, cols, List.replicate (rows * cols) junk⟩

/-- Read access `mat(r, c)`. -/
def get (m : MatrixXd) (r c : Nat) : F64 := m.data.getD (c * m.rows + r) default

/-- Write access `mat(r, c) = v`. -/
def set (m : MatrixXd) (r c : Nat) (v : F64) : MatrixXd :=
  { m with data := m.data.set (c * m.rows + r) v }

/-- The matrix with the given dimensions and coefficient function. -/
def ofFn (rows cols : Nat) (f : Nat → Nat → F64) : MatrixXd :=
  ⟨rows, cols, (List.range (rows * cols)).map (fun i => f (i % rows) (i / rows))⟩

/-- Column `c` as a vector, `mat.col(c)`. -/
def col (m : MatrixXd) (c : Nat) : VectorXd :=
  (List.range m.rows).map (fun r => m.get r c)

/-- The transpose `mat.transpose()`. -/
def transpose (m : MatrixXd) : MatrixXd :=
  ofFn m.cols m.rows (fun r c => m.get c r)

/-- The matrix `MatrixXd::Identity(rows, cols)`. -/
def identity (rows cols : Nat) : MatrixXd :=
  ofFn rows cols (fun r c => if r = c then F64.fin 1 else F64.fin 0)

end MatrixXd

/-! ## Numeric kernels taken as parameters -/

/-- Double arithmetic and the Eigen decompositions used by `main.cpp`.  None of
them is defined in the repository; each is a total function here, and where
Eigen leaves a result unspecified (operands of unsuitable shape, a singular
matrix) the value is whatever the field returns. -/
structure Kernels where
  /-- The sum `a + b`. -/
  add : F64 → F64 → F64
  /-- The difference `a - b`. -/
  sub : F64 → F64 → F64
  /-- The product `a * b`. -/
  mul : F64 → F64 → F64
  /-- The quotient `a / b`. -/
  div : F64 → F64 → F64
  /-- The function `sqrt`. -/
  sqrt : F64 → F64
  /-- The function `abs`. -/
  abs : F64 → F64
  /-- The function `pow`. -/
  pow : F64 → F64 → F64
  /-- The conversion of an integer count to `double`. -/
  ofNat : Nat → F64
  /-- The round trip `static_cast<float>` followed by widening to `double`. -/
  toFloat : F64 → F64
  /-- The factor `FullPivHouseholderQR<MatrixXd>(mat).matrixQ()`. -/
  matrixQ : MatrixXd → MatrixXd
  /-- The vector `BDCSVD<MatrixXd>(mat).singularValues()`. -/
  singularValues : MatrixXd → VectorXd
  /-- The matrix `mat.inverse()`. -/
  inverse : MatrixXd → MatrixXd
  /-- The vector `SelfAdjointEigenSolver<MatrixXd>(mat).eigenvalues()`. -/
  eigenvalues : MatrixXd → VectorXd
  /-- The matrix `SelfAdjointEigenSolver<MatrixXd>(mat).eigenvectors()`. -/
  eigenvectors : MatrixXd → MatrixXd
  /-- The value found in a coefficient that `resize` has not initialised. -/
  junk : F64

/-- The inner product of two vectors, accumulated from the left. -/
def dot (K : Kernels) (u v : VectorXd) : F64 :=
  match List.zipWith K.mul u v with
  | [] => F64.fin 0
  | p :: ps => ps.foldl K.add p

/-- Row `r` of a matrix as a vector. -/
def MatrixXd.row (m : MatrixXd) (r : Nat) : VectorXd :=
  (List.range m.cols).map (fun c => m.get r c)

/-- The coefficients of the matrix product `a * b` of operands whose shapes
fit, `a.cols = b.rows`.  For other operands the code has no product, see
`product`. -/
def matmul (K : Kernels) (a b : MatrixXd) : MatrixXd :=
  MatrixXd.ofFn a.rows b.cols (fun r c => dot K (a.row r) (b.col c))

/-- The Eigen expression `a * b` with its assertion `a.cols() == b.rows()`
("invalid matrix product"); `none` when the assertion fails. -/
def product (K : Kernels) (a b : MatrixXd) : Option MatrixXd :=
  if a.cols = b.rows then some (matmul K a b) else none

/-- The coefficients of the matrix difference `a - b` of operands of the same
shape. -/
def matsub (K : Kernels) (a b : MatrixXd) : MatrixXd :=
  MatrixXd.ofFn a.rows a.cols (fun r c => K.sub (a.get r c) (b.get r c))

/-! ## The C interface record -/

/-- The record `t_mat` of `ExportHeader.h`.  The field `ptr` is the caller's
buffer: `ptr i` is the double found `i` elements after the pointer. -/
structure t_mat where
  id : Nat
  ptr : Nat → F64
  rows : Nat
  cols : Nat

/-- The only exception thrown by the library. -/
inductive Exn where
  | not_found : Exn
  deriving DecidableEq

/-- The ways in which `canonical_correlation` ends without a score: an
exception that reaches the caller, or a product whose operands fail Eigen's
shape assertion, which aborts the process (and is undefined behaviour when
assertions are compiled out). -/
inductive Fault where
  | thrown (e : Exn) : Fault
  | invalid_product : Fault
  deriving DecidableEq

/-! ## Global state -/

/-- A `std::map<unsigned long long, MatrixXd>`. -/
abbrev MatMap := Nat → Option MatrixXd

namespace MatMap

/-- The empty map, also the result of `clear()`. -/
def empty : MatMap := fun _ => none

/-- The lookup `m.find(k)`, where `none` is `m.end()`. -/
def find (m : MatMap) (k : Nat) : Option MatrixXd := m k

/-- The assignment `m[k] = v`. -/
def insert (m : MatMap) (k : Nat) (v : MatrixXd) : MatMap :=
  fun j => if j = k then some v else m j

/-- The removal `m.erase(k)`. -/
def erase (m : MatMap) (k : Nat) : MatMap :=
  fun j => if j = k then none else m j

end MatMap

/-- The globals `index`, `matrices` and `qr_matrices`. -/
structure State where
  index : Nat
  matrices : MatMap
  qr_matrices : MatMap

/-- The state at process start. -/
def State.init : State := ⟨0, MatMap.empty, MatMap.empty⟩

/-! ## Functions of `main.cpp` -/

/-- The function `column_means`. -/
def column_means (K : Kernels) (mat : MatrixXd) : VectorXd :=
  let rows := mat.rows
  let cols := mat.cols
  (List.range cols).map (fun c =>
    let sum := (List.range rows).foldl (fun sum r => K.add sum (mat.get r c)) (F64.fin 0)
    K.toFloat (K.div sum (K.ofNat rows)))

/-- The function `centerize`: every row has the vector of means subtracted. -/
def centerize (K : Kernels) (mat : MatrixXd) : MatrixXd :=
  let means := column_means K mat
  let rows := mat.rows
  (List.range rows).foldl
    (fun m r => (List.range m.cols).foldl
      (fun m c => m.set r c (K.sub (m.get r c) (means.getD c default))) m) mat

/-- The function `economy_qr`.  The factor `q` that Eigen returns is square of
order `rows`, so the shapes of `q * Identity(rows, cols)` always fit. -/
def economy_qr (K : Kernels) (mat : MatrixXd) : MatrixXd :=
  let rows := mat.rows
  let cols := mat.cols
  let q := K.matrixQ mat
  if rows > cols then matmul K q (MatrixXd.identity rows cols) else q

/-- The function `cca_qr`: center, then economy QR. -/
def cca_qr (K : Kernels) (mat : MatrixXd) : MatrixXd :=
  economy_qr K (centerize K mat)

/-- The function `cca_svd`; `none` when `qx.transpose() * qy` fails Eigen's
shape assertion, that is, when `qx` and `qy` differ in their row counts. -/
def cca_svd (K : Kernels) (qx qy : MatrixXd) : Option VectorXd :=
  match product K qx.transpose qy with
  | none => none
  | some p => some (K.singularValues p)

/-- The function `max_in_vector`. -/
def max_in_vector (vec : VectorXd) : F64 :=
  let max_value := vec.foldl (fun max_value v => F64.max max_value v) F64.ninf
  F64.max (F64.min max_value (F64.fin 1)) (F64.fin 0)

/-- The function `convert_matrix`.  The accumulator of the two loops is the
matrix under construction together with the offset of `ptr` from the start of
the buffer.  The coefficients left by `resize` are all overwritten. -/
def convert_matrix (t : t_mat) : MatrixXd :=
  let mat := MatrixXd.resize default t.rows t.cols
  ((List.range t.rows).foldl
    (fun (acc : MatrixXd × Nat) r =>
      (List.range t.cols).foldl
        (fun (acc : MatrixXd × Nat) c => (acc.1.set r c (t.ptr acc.2), acc.2 + 1))
        acc)
    (mat, 0)).1

/-- The function `retrieve_allocated_matrix`. -/
def retrieve_allocated_matrix (s : State) (id : Nat) : Except Exn MatrixXd :=
  match s.matrices.find id with
  | none => Except.error Exn.not_found
  | some m => Except.ok m

/-- The function `retrieve_cca_qr_matrix`: the matrix placed in `qr_mat`, or
the exception, together with the state left behind. -/
def retrieve_cca_qr_matrix (K : Kernels) (s : State) (t : t_mat) :
    Except Exn MatrixXd × State :=
  match (if t.id > 0 then s.qr_matrices.find t.id else none) with
  | some q => (Except.ok q, s)
  | none =>
    if t.id > 0 then
      match retrieve_allocated_matrix s t.id with
      | Except.error e => (Except.error e, s)
      | Except.ok m =>
        let qr_mat := cca_qr K m
        (Except.ok qr_mat, { s with qr_matrices := s.qr_matrices.insert t.id qr_mat })
    else
      (Except.ok (cca_qr K (convert_matrix t)), s)

/-- The exported function `compute_cca_qr`. -/
def compute_cca_qr (K : Kernels) (s : State) (id : Nat) : Except Exn Unit × State :=
  match retrieve_allocated_matrix s id with
  | Except.error e => (Except.error e, s)
  | Except.ok matrix =>
    let qr_mat := cca_qr K matrix
    (Except.ok (), { s with qr_matrices := s.qr_matrices.insert id qr_mat })

/-- The `while (true)` loop of `alloc_matrix`, run for at most `fuel`
iterations; `none` means that the fuel ran out. -/
def alloc_loop (matrix : MatrixXd) : Nat → State → Option (Nat × State)
  | 0, _ => none
  | fuel + 1, s =>
    let id := (s.index + 1) % 2 ^ 64
    let s := { s with index := id }
    if id ≤ 0 then
      alloc_loop matrix fuel { s with index := 0 }
    else if s.matrices.find id ≠ none then
      alloc_loop matrix fuel s
    else
      some (id, { s with matrices := s.matrices.insert id matrix })

/-- The exported function `alloc_matrix`; `none` means that the loop does not
terminate. -/
def alloc_matrix (s : State) (mat : t_mat) : Option (Nat × State) :=
  alloc_loop (convert_matrix mat) (2 ^ 64) s

/-- The exported function `delete_matrix`. -/
def delete_matrix (s : State) (index : Nat) : State :=
  { s with matrices := s.matrices.erase index, qr_matrices := s.qr_matrices.erase index }

/-- The exported function `clear_matrices`. -/
def clear_matrices (_s : State) : State :=
  { index := 0, matrices := MatMap.empty, qr_matrices := MatMap.empty }

/-- The exported function `canonical_correlation`: the score or the way the
call ended without one, together with the state reached. -/
def canonical_correlation (K : Kernels) (s : State) (x y : t_mat) :
    Except Fault F64 × State :=
  match retrieve_cca_qr_matrix K s x with
  | (Except.error e, s1) => (Except.error (Fault.thrown e), s1)
  | (Except.ok qx, s1) =>
    match retrieve_cca_qr_matrix K s1 y with
    | (Except.error e, s2) => (Except.error (Fault.thrown e), s2)
    | (Except.ok qy, s2) =>
      match cca_svd K qx qy with
      | none => (Except.error Fault.invalid_product, s2)
      | some vector => (Except.ok (max_in_vector vector), s2)

/-- The Eigen reduction `vec.count()`: the number of coefficients that are
true when converted to `bool`, that is, different from zero. -/
def VectorXd.count (vec : VectorXd) : Nat := (vec.filter F64.isNonzero).length

/-- The call of `sort` in `minimum_energy_combination_power`: ascending in the
first component.  Pairs with equal first components keep their order here;
`std::sort` leaves their order open. -/
def sort_eigens (eigens : List (F64 × VectorXd)) : List (F64 × VectorXd) :=
  eigens.insertionSort (fun a b => F64.lt b.1 a.1 = false)

/-- The loop of `minimum_energy_combination_power` that fills `W`; the
accumulator is `W` together with the column counter `c`. -/
def fill_W (K : Kernels) (eigens : List (F64 × VectorXd)) (W : MatrixXd) : MatrixXd :=
  (eigens.foldl
    (fun (acc : MatrixXd × Nat) eigen =>
      let sqrtEigenVal := K.sqrt eigen.1
      ((List.range (VectorXd.count eigen.2)).foldl
        (fun W i => W.set i acc.2 (K.div (eigen.2.getD i default) sqrtEigenVal)) acc.1,
       acc.2 + 1))
    (W, 0)).1

/-- The matrix `W` built by `minimum_energy_combination_power`.  For `Y` and
`X` with equal row counts, which is what the statements about this function
take, the shapes of all its products and of its difference fit. -/
def whitening (K : Kernels) (Y X : MatrixXd) : MatrixXd :=
  let xt := X.transpose
  let Y1 := matsub K Y (matmul K (matmul K (matmul K X (K.inverse (matmul K xt X))) xt) Y)
  let A := matmul K Y1.transpose Y1
  let count := (K.eigenvalues A).length
  let eigenValues := K.eigenvalues A
  let eigenVectors := K.eigenvectors A
  let eigens := (List.range count).map
    (fun i => (eigenValues.getD i default, eigenVectors.col i))
  let eigens := sort_eigens eigens
  fill_W K eigens (MatrixXd.resize K.junk eigenVectors.rows eigenVectors.cols)

/-- The function `minimum_energy_combination_power`. -/
def minimum_energy_combination_power (K : Kernels) (Y X : MatrixXd) : F64 :=
  let W := whitening K Y X
  let S := matmul K Y W
  let p := (List.range S.cols).foldl
    (fun p l => (List.range X.cols).foldl
      (fun p k => K.add p (K.pow (K.abs (dot K (X.col k) (S.col l))) (F64.fin 2))) p)
    (F64.fin 0)
  K.div p (K.mul (K.ofNat S.cols) (K.ofNat X.cols))

/-- One call of an exported function that touches the globals. -/
inductive Op where
  | alloc (mat : t_mat) : Op
  | delete (index : Nat) : Op
  | clear : Op
  | compute_qr (id : Nat) : Op
  | correlate (x y : t_mat) : Op

/-- Whether the call is `clear_matrices`. -/
def Op.isClear : Op → Bool
  | Op.clear => true
  | _ => false

/-- Whether the call is `alloc_matrix`. -/
def Op.isAlloc : Op → Bool
  | Op.alloc _ => true
  | _ => false

/-- The state after one call and the handles the call returned; `none` when
the call does not return.  A call that throws, or that ends in a failed shape
assertion, leaves the state it had reached. -/
def step (K : Kernels) (s : State) : Op → Option (State × List Nat)
  | Op.alloc mat => (alloc_matrix s mat).map (fun r => (r.2, [r.1]))
  | Op.delete index => some (delete_matrix s index, [])
  | Op.clear => some (clear_matrices s, [])
  | Op.compute_qr id => some ((compute_cca_qr K s id).2, [])
  | Op.correlate x y => some ((canonical_correlation K s x y).2, [])

/-- The state after a sequence of calls and the handles returned by its
`alloc_matrix` calls, oldest first. -/
def run (K : Kernels) : State → List Op → Option (State × List Nat)
  | s, [] => some (s, [])
  | s, op :: ops =>
    match step K s op with
    | none => none
    | some (s1, hs1) =>
      match run K s1 ops with
      | none => none
      | some (s2, hs2) => some (s2, hs1 ++ hs2)

/-- The states that sequences of calls reach from process start. -/
inductive Reachable (K : Kernels) : State → Prop where
  | init : Reachable K State.init
  | step (s s1 : State) (op : Op) (hs : List Nat) :
      Reachable K s → step K s op = some (s1, hs) → Reachable K s1

/-! ## A concrete kernel instance

Exact rational arithmetic with the IEEE rules for infinities and NaN, and
decompositions that are right for diagonal matrices with positive diagonal.
It serves to evaluate the definitions on concrete data. -/

namespace F64

/-- Exact negation. -/
def neg : F64 → F64
  | nan => nan
  | ninf => pinf
  | pinf => ninf
  | fin q => fin (-q)

/-- Exact addition. -/
def add : F64 → F64 → F64
  | nan, _ => nan
  | _, nan => nan
  | pinf, ninf => nan
  | ninf, pinf => nan
  | pinf, _ => pinf
  | _, pinf => pinf
  | ninf, _ => ninf
  | _, ninf => ninf
  | fin a, fin b => fin (a + b)

/-- The infinity with the sign of `q`, NaN when `q` is zero. -/
def signedInf (q : ℚ) : F64 :=
  if q = 0 then nan else if 0 < q then pinf else ninf

/-- Exact multiplication. -/
def mul : F64 → F64 → F64
  | nan, _ => nan
  | _, nan => nan
  | fin a, fin b => fin (a * b)
  | fin a, pinf => signedInf a
  | fin a, ninf => signedInf (-a)
  | pinf, fin b => signedInf b
  | ninf, fin b => signedInf (-b)
  | pinf, pinf => pinf
  | ninf, ninf => pinf
  | pinf, ninf => ninf
  | ninf, pinf => ninf

/-- Exact division. -/
def div : F64 → F64 → F64
  | nan, _ => nan
  | _, nan => nan
  | fin a, fin b => if b = 0 then signedInf a else fin (a / b)
  | fin _, _ => fin 0
  | pinf, fin b => if b < 0 then ninf else pinf
  | ninf, fin b => if b < 0 then pinf else ninf
  | _, _ => nan

/-- Absolute value. -/
def abs : F64 → F64
  | nan => nan
  | fin q => fin |q|
  | _ => pinf

/-- Square root, truncated to a multiple of the reciprocal denominator. -/
def sqrt : F64 → F64
  | nan => nan
  | ninf => nan
  | pinf => pinf
  | fin q => if q < 0 then nan else fin (Nat.sqrt (q.num.toNat * q.den) / q.den)

end F64

/-- The diagonal of a matrix. -/
def MatrixXd.diagonal (m : MatrixXd) : VectorXd :=
  (List.range (Nat.min m.rows m.cols)).map (fun i => m.get i i)

/-- The concrete kernel instance. -/
def diagKernels : Kernels where
  add := F64.add
  sub := fun a b => F64.add a (F64.neg b)
  mul := F64.mul
  div := F64.div
  sqrt := F64.sqrt
  abs := F64.abs
  pow := fun a b => if b = F64.fin 2 then F64.mul a a else F64.nan
  ofNat := fun n => F64.fin n
  toFloat := fun a => a
  matrixQ := fun m => MatrixXd.identity m.rows m.rows
  singularValues := fun m => m.diagonal.map F64.abs
  inverse := fun m => MatrixXd.ofFn m.rows m.cols
    (fun r c => if r = c then F64.div (F64.fin 1) (m.get r c) else F64.fin 0)
  eigenvalues := fun m => m.diagonal
  eigenvectors := fun m => MatrixXd.identity m.rows m.cols
  junk := F64.fin 0

/-! ## Concrete data -/

/-- A buffer holding 1, 2, 3, 4, 5, 6 followed by zeros. -/
def sample_buf : Nat → F64 := fun i => F64.fin (([1, 2, 3, 4, 5, 6] : List ℚ).getD i 0)

/-- An inline descriptor of a 2 by 3 matrix. -/
def sample_mat : t_mat := ⟨0, sample_buf, 2, 3⟩

/-- The state after one allocation of `sample_mat` from process start. -/
def sample_state : State := ⟨1, MatMap.empty.insert 1 (convert_matrix sample_mat), MatMap.empty⟩

/-- A state whose counter has reached the largest 64-bit value while handle 1
is still live. -/
def wrap_state : State :=
  ⟨2 ^ 64 - 1, MatMap.empty.insert 1 (convert_matrix sample_mat), MatMap.empty⟩

/-- The number of `alloc_matrix` calls in a sequence. -/
def allocCount (ops : List Op) : Nat := ops.countP Op.isAlloc

/-- The sequence that allocates and deletes again, `n` times over. -/
def churn_ops : Nat → List Op
  | 0 => []
  | n + 1 => churn_ops n ++ [Op.alloc sample_mat, Op.delete (n + 1)]

/-- The sequence that wraps the counter: `2 ^ 64 - 1` rounds of allocating and
deleting, then one more allocation. -/
def wrap_ops : List Op := churn_ops (2 ^ 64 - 1) ++ [Op.alloc sample_mat]

/-- Every cached decomposition belongs to a live handle and is `cca_qr` of the
matrix stored under that handle. -/
def CacheOK (K : Kernels) (s : State) : Prop :=
  ∀ (h : Nat) (q : MatrixXd), s.qr_matrices h = some q →
    ∃ m, s.matrices h = some m ∧ q = cca_qr K m

/-- A descriptor that refers to the stored matrix with handle 1. -/
def handle_one : t_mat := ⟨1, fun _ => F64.fin 0, 0, 0⟩

/-- The state after allocating `sample_mat` and precomputing its QR factor. -/
def cached_state : State := (compute_cca_qr diagKernels sample_state 1).2

/-- An inline descriptor of a 3 by 2 matrix over the same buffer. -/
def sample_mat3 : t_mat := ⟨0, sample_buf, 3, 2⟩

/-- The descriptor has a handle that neither the cache nor the repository
knows. -/
def Unknown (s : State) (t : t_mat) : Prop :=
  0 < t.id ∧ s.qr_matrices.find t.id = none ∧ s.matrices.find t.id = none

/-- A state in which every id is a key of `matrices`. -/
def full_state : State := ⟨5, fun _ => some MatrixXd.empty, MatMap.empty⟩

/-- The state of the loops of `convert_matrix` when rows below `k` and the
columns below `j` of row `k` have been written. -/
def ConvertInv (t : t_mat) (k j : Nat) (acc : MatrixXd × Nat) : Prop :=
  acc.2 = k * t.cols + j ∧ acc.1.rows = t.rows ∧ acc.1.cols = t.cols ∧
    acc.1.data.length = t.rows * t.cols ∧
    ∀ r c, r < t.rows → c < t.cols → (r < k ∨ (r = k ∧ c < j)) →
      acc.1.get r c = t.ptr (r * t.cols + c)

/-- The 3 by 2 signal matrix with columns (1, 0, 0) and (0, 1, 0). -/
def signal_Y : MatrixXd :=
  ⟨3, 2, [F64.fin 1, F64.fin 0, F64.fin 0, F64.fin 0, F64.fin 1, F64.fin 0]⟩

/-- The 3 by 1 reference matrix with column (0, 0, 1). -/
def reference_X : MatrixXd := ⟨3, 1, [F64.fin 0, F64.fin 0, F64.fin 1]⟩

/-- The double is NaN or compares `>= 0`. -/
def NonNegOrNaN (x : F64) : Prop := x = F64.nan ∨ F64.le (F64.fin 0) x = true

/-- Sign rules of IEEE 754 arithmetic, assumed of the kernels where the sign of
a result matters: a square is not negative, a sum of two non-negative numbers
is not negative, and neither is a non-negative number divided by a product of
two counts; NaN is allowed everywhere. -/
def SignLaws (K : Kernels) : Prop :=
  (∀ a, NonNegOrNaN (K.pow (K.abs a) (F64.fin 2))) ∧
  (∀ a b, NonNegOrNaN a → NonNegOrNaN b → NonNegOrNaN (K.add a b)) ∧
  (∀ a m n, NonNegOrNaN a → NonNegOrNaN (K.div a (K.mul (K.ofNat m) (K.ofNat n))))

/-- The integer nearest to `x`, the even one of the two when `x` lies half way
between them. -/
def round_half_even (x : ℚ) : ℤ :=
  if x - ⌊x⌋ < 1 / 2 then ⌊x⌋
  else if 1 / 2 < x - ⌊x⌋ then ⌊x⌋ + 1
  else if ⌊x⌋ % 2 = 0 then ⌊x⌋ else ⌊x⌋ + 1

/-- The value of `static_cast<float>(x)` widened to `double` again: `x` rounded
to the nearest IEEE 754 binary32 number (24 significant bits, exponents from
-126 to 127, ties to even, overflow to infinity). -/
def F64.toFloat32 : F64 → F64
  | F64.fin q =>
    if q = 0 then F64.fin 0
    else
      let e : ℤ := Max.max (Int.log 2 |q|) (-126)
      let ulp : ℚ := 2 ^ (e - 23)
      let r : ℚ := round_half_even (|q| / ulp) * ulp
      if 2 ^ 128 ≤ r then (if 0 < q then F64.pinf else F64.ninf)
      else F64.fin (if 0 < q then r else -r)
  | x => x

/-- The kernel instance `diagKernels` with the conversion to `float` in place
of the identity. -/
def floatKernels : Kernels := { diagKernels with toFloat := F64.toFloat32 }

/-- The 1 by 1 matrix with entry 16777217, which is 2 ^ 24 + 1. -/
def wide_mat : MatrixXd := ⟨1, 1, [F64.fin 16777217]⟩

/-! ## Lemmas on maps and on the allocation loop -/

theorem MatMap.insert_self (m : MatMap) (k : Nat) (v : MatrixXd) : (m.insert k v) k = some v := by
  simp [MatMap.insert]

theorem MatMap.insert_other (m : MatMap) (k j : Nat) (v : MatrixXd) (h : j ≠ k) :
    (m.insert k v) j = m j := by
  simp [MatMap.insert, h]

theorem MatMap.erase_self (m : MatMap) (k : Nat) : (m.erase k) k = none := by
  simp [MatMap.erase]

theorem MatMap.erase_other (m : MatMap) (k j : Nat) (h : j ≠ k) : (m.erase k) j = m j := by
  simp [MatMap.erase, h]

theorem MatMap.erase_erase (m : MatMap) (k : Nat) : (m.erase k).erase k = m.erase k := by
  funext j; by_cases h : j = k <;> simp [MatMap.erase, h]

theorem MatMap.erase_absent (m : MatMap) (k : Nat) (h : m k = none) : m.erase k = m := by
  funext j; by_cases hj : j = k
  · subst hj; simp [MatMap.erase, h]
  · simp [MatMap.erase, hj]

theorem alloc_loop_succ (matrix : MatrixXd) (fuel : Nat) (s : State) :
    alloc_loop matrix (fuel + 1) s =
      if (s.index + 1) % 2 ^ 64 = 0 then
        alloc_loop matrix fuel ⟨0, s.matrices, s.qr_matrices⟩
      else if s.matrices ((s.index + 1) % 2 ^ 64) ≠ none then
        alloc_loop matrix fuel ⟨(s.index + 1) % 2 ^ 64, s.matrices, s.qr_matrices⟩
      else
        some ((s.index + 1) % 2 ^ 64,
          ⟨(s.index + 1) % 2 ^ 64, s.matrices.insert ((s.index + 1) % 2 ^ 64) matrix,
            s.qr_matrices⟩) := by
  simp only [alloc_loop, MatMap.find, Nat.le_zero_eq]

theorem alloc_loop_sound (matrix : MatrixXd) :
    ∀ (fuel : Nat) (s : State) (h : Nat) (s1 : State),
      alloc_loop matrix fuel s = some (h, s1) →
        0 < h ∧ h < 2 ^ 64 ∧ s.matrices h = none ∧
          s1 = ⟨h, s.matrices.insert h matrix, s.qr_matrices⟩ := by
  intro fuel
  induction fuel with
  | zero => intro s h s1 hr; simp [alloc_loop] at hr
  | succ n ih =>
    intro s h s1 hr
    rw [alloc_loop_succ] at hr
    split at hr
    · have := ih _ h s1 hr
      exact this
    · split at hr
      · have := ih _ h s1 hr
        exact this
      · rename_i h0 hfree
        simp only [Option.some.injEq, Prod.mk.injEq] at hr
        obtain ⟨rfl, rfl⟩ := hr
        refine ⟨Nat.pos_of_ne_zero h0, Nat.mod_lt _ (by norm_num), ?_, rfl⟩
        simpa using hfree

theorem alloc_loop_complete (matrix : MatrixXd) :
    ∀ (fuel : Nat) (s : State),
      (∃ d, d < fuel ∧ (s.index + 1 + d) % 2 ^ 64 ≠ 0 ∧
        s.matrices ((s.index + 1 + d) % 2 ^ 64) = none) →
      (alloc_loop matrix fuel s).isSome = true := by
  intro fuel
  induction fuel with
  | zero => intro s ⟨d, hd, _⟩; omega
  | succ n ih =>
    intro s ⟨d, hd, hnz, hfree⟩
    rw [alloc_loop_succ]
    split
    · rename_i h0
      apply ih
      cases d with
      | zero => exact absurd h0 hnz
      | succ e =>
        have : (s.index + 1 + (e + 1)) % 2 ^ 64 = (0 + 1 + e) % 2 ^ 64 := by omega
        rw [this] at hnz hfree
        exact ⟨e, by omega, hnz, hfree⟩
    · split
      · rename_i h0 hused
        apply ih
        cases d with
        | zero => exact absurd hfree hused
        | succ e =>
          have : (s.index + 1 + (e + 1)) % 2 ^ 64 = ((s.index + 1) % 2 ^ 64 + 1 + e) % 2 ^ 64 := by
            omega
          rw [this] at hnz hfree
          exact ⟨e, by omega, hnz, hfree⟩
      · rfl

theorem alloc_matrix_isSome (s : State) (mat : t_mat)
    (hfree : ∃ k, 0 < k ∧ k < 2 ^ 64 ∧ s.matrices k = none) :
    (alloc_matrix s mat).isSome = true := by
  obtain ⟨k, hk0, hk, hfree⟩ := hfree
  apply alloc_loop_complete
  refine ⟨(k + 2 ^ 64 - (s.index + 1) % 2 ^ 64) % 2 ^ 64, Nat.mod_lt _ (by norm_num), ?_, ?_⟩
  · have : (s.index + 1 + (k + 2 ^ 64 - (s.index + 1) % 2 ^ 64) % 2 ^ 64) % 2 ^ 64 = k := by omega
    rw [this]; omega
  · have : (s.index + 1 + (k + 2 ^ 64 - (s.index + 1) % 2 ^ 64) % 2 ^ 64) % 2 ^ 64 = k := by omega
    rw [this]; exact hfree


/-! ## Allocation, fetch, deletion, clearing -/

theorem State.ext_fields (s t : State) (h1 : s.index = t.index) (h2 : s.matrices = t.matrices)
    (h3 : s.qr_matrices = t.qr_matrices) : s = t := by
  cases s; cases t; simp_all

theorem alloc_matrix_unfold (s : State) (mat : t_mat) :
    alloc_matrix s mat = alloc_loop (convert_matrix mat) (2 ^ 64 - 1 + 1) s := rfl

theorem alloc_matrix_sound (s : State) (mat : t_mat) (h : Nat) (s1 : State)
    (hr : alloc_matrix s mat = some (h, s1)) :
    0 < h ∧ h < 2 ^ 64 ∧ s.matrices h = none ∧
      s1 = ⟨h, s.matrices.insert h (convert_matrix mat), s.qr_matrices⟩ :=
  alloc_loop_sound (convert_matrix mat) (2 ^ 64) s h s1 hr

/-- C1: when `alloc_matrix` returns handle `h`, fetching `h` in the state it
leaves succeeds and yields exactly the matrix `convert_matrix` builds from the
descriptor; and `alloc_matrix` does return whenever some non-zero 64-bit id is
free. -/
theorem alloc_then_fetch (s : State) (mat : t_mat) :
    ((∃ k, 0 < k ∧ k < 2 ^ 64 ∧ s.matrices.find k = none) →
      (alloc_matrix s mat).isSome = true) ∧
    ∀ (h : Nat) (s1 : State), alloc_matrix s mat = some (h, s1) →
      retrieve_allocated_matrix s1 h = Except.ok (convert_matrix mat) := by
  refine ⟨alloc_matrix_isSome s mat, ?_⟩
  intro h s1 hr
  obtain ⟨_, _, _, rfl⟩ := alloc_matrix_sound s mat h s1 hr
  simp [retrieve_allocated_matrix, MatMap.find, MatMap.insert]

/-- The first allocation after process start, fetched back. -/
theorem alloc_then_fetch_witness :
    alloc_matrix State.init sample_mat = some (1, sample_state) ∧
      retrieve_allocated_matrix sample_state 1 = Except.ok (convert_matrix sample_mat) :=
  ⟨rfl, (alloc_then_fetch State.init sample_mat).2 1 sample_state rfl⟩

/-- C2: in a state where some non-zero 64-bit id is free, `alloc_matrix`
returns, and the handle it returns is not 0, fits in 64 bits and was not a key
of `matrices` before the call; the counter value plays no role, so this covers
the wraparound at `2 ^ 64 - 1`. -/
theorem alloc_handle_fresh (s : State) (mat : t_mat)
    (hfree : ∃ k, 0 < k ∧ k < 2 ^ 64 ∧ s.matrices.find k = none) :
    ∃ (h : Nat) (s1 : State), alloc_matrix s mat = some (h, s1) ∧
      h ≠ 0 ∧ h < 2 ^ 64 ∧ s.matrices.find h = none := by
  have hs := alloc_matrix_isSome s mat hfree
  obtain ⟨⟨h, s1⟩, hr⟩ := Option.isSome_iff_exists.mp hs
  obtain ⟨h0, hlt, hnone, _⟩ := alloc_matrix_sound s mat h s1 hr
  exact ⟨h, s1, hr, by omega, hlt, hnone⟩

/-- Allocation at the largest counter value while handle 1 is live. -/
theorem alloc_handle_fresh_witness :
    (∃ k, 0 < k ∧ k < 2 ^ 64 ∧ wrap_state.matrices.find k = none) ∧
    ∃ (h : Nat) (s1 : State), alloc_matrix wrap_state sample_mat = some (h, s1) ∧
      h ≠ 0 ∧ h < 2 ^ 64 ∧ wrap_state.matrices.find h = none :=
  ⟨⟨2, by decide, by decide, rfl⟩,
    alloc_handle_fresh wrap_state sample_mat ⟨2, by decide, by decide, rfl⟩⟩

/-- C4: `delete_matrix` is a total function on states; deleting the same handle
twice gives the state of deleting it once; and deleting a handle that is a key
of neither map gives back the state unchanged. -/
theorem delete_idempotent (s : State) (h : Nat) :
    delete_matrix (delete_matrix s h) h = delete_matrix s h ∧
    (s.matrices.find h = none → s.qr_matrices.find h = none → delete_matrix s h = s) := by
  constructor
  · simp [delete_matrix, MatMap.erase_erase]
  · intro h1 h2
    apply State.ext_fields
    · rfl
    · exact MatMap.erase_absent _ _ h1
    · exact MatMap.erase_absent _ _ h2

/-- Deleting the unknown handle 7 after one allocation. -/
theorem delete_idempotent_witness :
    delete_matrix (delete_matrix sample_state 7) 7 = delete_matrix sample_state 7 ∧
      delete_matrix sample_state 7 = sample_state :=
  ⟨(delete_idempotent sample_state 7).1, (delete_idempotent sample_state 7).2 rfl rfl⟩

/-- C5: `clear_matrices` yields the state of process start from every state,
and the next `alloc_matrix` returns handle 1, as the first `alloc_matrix` after
process start does. -/
theorem clear_resets (s : State) (mat : t_mat) :
    clear_matrices s = State.init ∧
    alloc_matrix (clear_matrices s) mat =
      some (1, ⟨1, MatMap.empty.insert 1 (convert_matrix mat), MatMap.empty⟩) ∧
    alloc_matrix State.init mat =
      some (1, ⟨1, MatMap.empty.insert 1 (convert_matrix mat), MatMap.empty⟩) := by
  have h : alloc_matrix State.init mat =
      some (1, ⟨1, MatMap.empty.insert 1 (convert_matrix mat), MatMap.empty⟩) := by
    rw [alloc_matrix_unfold, alloc_loop_succ]
    simp [State.init, MatMap.empty]
  exact ⟨rfl, h, h⟩

/-! ## What the cache operations leave unchanged, and the order of handles -/

theorem retrieve_cca_qr_matrix_frame (K : Kernels) (s : State) (t : t_mat) :
    (retrieve_cca_qr_matrix K s t).2.index = s.index ∧
      (retrieve_cca_qr_matrix K s t).2.matrices = s.matrices := by
  unfold retrieve_cca_qr_matrix
  split
  · exact ⟨rfl, rfl⟩
  · split
    · split <;> exact ⟨rfl, rfl⟩
    · exact ⟨rfl, rfl⟩

theorem compute_cca_qr_frame (K : Kernels) (s : State) (id : Nat) :
    (compute_cca_qr K s id).2.index = s.index ∧
      (compute_cca_qr K s id).2.matrices = s.matrices := by
  unfold compute_cca_qr
  split <;> exact ⟨rfl, rfl⟩

theorem canonical_correlation_state (K : Kernels) (s : State) (x y : t_mat) :
    (canonical_correlation K s x y).2 = (retrieve_cca_qr_matrix K s x).2 ∨
    (canonical_correlation K s x y).2 =
      (retrieve_cca_qr_matrix K (retrieve_cca_qr_matrix K s x).2 y).2 := by
  unfold canonical_correlation
  split
  · rename_i e s1 h1; left; rw [h1]
  · rename_i qx s1 h1
    right
    split
    · rename_i e s2 h2; rw [h1]; simp only; rw [h2]
    · rename_i qy s2 h2
      rw [h1]; simp only; rw [h2]
      split <;> rfl

theorem canonical_correlation_frame (K : Kernels) (s : State) (x y : t_mat) :
    (canonical_correlation K s x y).2.index = s.index ∧
      (canonical_correlation K s x y).2.matrices = s.matrices := by
  have hx := retrieve_cca_qr_matrix_frame K s x
  have hy := retrieve_cca_qr_matrix_frame K (retrieve_cca_qr_matrix K s x).2 y
  rcases canonical_correlation_state K s x y with h | h
  · rw [h]; exact hx
  · rw [h]; exact ⟨hy.1.trans hx.1, hy.2.trans hx.2⟩

theorem alloc_matrix_next (s : State) (mat : t_mat) (hlt : s.index + 1 < 2 ^ 64)
    (hfree : s.matrices (s.index + 1) = none) :
    alloc_matrix s mat =
      some (s.index + 1,
        ⟨s.index + 1, s.matrices.insert (s.index + 1) (convert_matrix mat), s.qr_matrices⟩) := by
  rw [alloc_matrix_unfold, alloc_loop_succ, Nat.mod_eq_of_lt hlt]
  simp [hfree]

theorem run_cons (K : Kernels) (s : State) (op : Op) (ops : List Op) :
    run K s (op :: ops) =
      match step K s op with
      | none => none
      | some (s1, hs1) =>
        match run K s1 ops with
        | none => none
        | some (s2, hs2) => some (s2, hs1 ++ hs2) := rfl

theorem run_append (K : Kernels) : ∀ (a b : List Op) (s : State),
    run K s (a ++ b) =
      match run K s a with
      | none => none
      | some (s1, hs1) =>
        match run K s1 b with
        | none => none
        | some (s2, hs2) => some (s2, hs1 ++ hs2) := by
  intro a
  induction a with
  | nil => intro b s; simp only [List.nil_append, run]; cases run K s b <;> simp
  | cons op a ih =>
    intro b s
    rw [List.cons_append, run_cons, run_cons]
    cases hstep : step K s op with
    | none => rfl
    | some r =>
      obtain ⟨s1, hs1⟩ := r
      dsimp only
      rw [ih b s1]
      cases run K s1 a with
      | none => rfl
      | some r2 =>
        obtain ⟨s2, hs2⟩ := r2
        dsimp only
        cases run K s2 b with
        | none => rfl
        | some r3 => simp

theorem step_no_wrap (K : Kernels) (s : State) (op : Op) (hclear : op.isClear = false)
    (hlt : s.index + (if op.isAlloc then 1 else 0) < 2 ^ 64)
    (hkeys : ∀ k, s.index < k → s.matrices k = none) :
    ∃ s1, step K s op = some (s1, if op.isAlloc then [s.index + 1] else []) ∧
      s1.index = s.index + (if op.isAlloc then 1 else 0) ∧
      (∀ k, s1.index < k → s1.matrices k = none) := by
  cases op with
  | alloc mat =>
    simp only [Op.isAlloc, if_true] at hlt ⊢
    refine ⟨⟨s.index + 1, s.matrices.insert (s.index + 1) (convert_matrix mat),
      s.qr_matrices⟩, ?_, rfl, ?_⟩
    · simp only [step, alloc_matrix_next s mat hlt (hkeys _ (Nat.lt_succ_self _))]
      rfl
    · intro k hk
      have hk1 : s.index + 1 < k := hk
      show (s.matrices.insert (s.index + 1) (convert_matrix mat)) k = none
      rw [MatMap.insert_other _ (s.index + 1) k _ (by omega)]
      exact hkeys k (by omega)
  | delete index =>
    refine ⟨_, rfl, rfl, ?_⟩
    intro k hk
    have hk1 : s.index < k := hk
    show (s.matrices.erase index) k = none
    by_cases hki : k = index
    · subst hki; exact MatMap.erase_self _ _
    · rw [MatMap.erase_other _ _ _ hki]; exact hkeys k hk1
  | clear => simp [Op.isClear] at hclear
  | compute_qr id =>
    obtain ⟨h1, h2⟩ := compute_cca_qr_frame K s id
    refine ⟨_, rfl, h1, ?_⟩
    intro k hk
    rw [h1] at hk
    rw [h2]; exact hkeys k hk
  | correlate x y =>
    obtain ⟨h1, h2⟩ := canonical_correlation_frame K s x y
    refine ⟨_, rfl, h1, ?_⟩
    intro k hk
    rw [h1] at hk
    rw [h2]; exact hkeys k hk

theorem allocCount_cons (op : Op) (ops : List Op) :
    allocCount (op :: ops) = (if op.isAlloc then 1 else 0) + allocCount ops := by
  unfold allocCount
  rw [List.countP_cons]
  split <;> omega

theorem run_no_wrap (K : Kernels) : ∀ (ops : List Op) (s : State),
    (∀ op ∈ ops, op.isClear = false) → s.index + allocCount ops < 2 ^ 64 →
    (∀ k, s.index < k → s.matrices k = none) →
    ∃ s1, run K s ops = some (s1, List.range' (s.index + 1) (allocCount ops)) ∧
      s1.index = s.index + allocCount ops ∧
      (∀ k, s1.index < k → s1.matrices k = none) := by
  intro ops
  induction ops with
  | nil =>
    intro s _ _ hkeys
    exact ⟨s, rfl, rfl, hkeys⟩
  | cons op ops ih =>
    intro s hclear hlt hkeys
    rw [allocCount_cons] at hlt ⊢
    obtain ⟨s1, hstep, hidx, hkeys1⟩ :=
      step_no_wrap K s op (hclear op (List.mem_cons_self _ _)) (by omega) hkeys
    obtain ⟨s2, hrun, hidx2, hkeys2⟩ :=
      ih s1 (fun o ho => hclear o (List.mem_cons_of_mem _ ho)) (by omega) hkeys1
    refine ⟨s2, ?_, by omega, hkeys2⟩
    rw [run_cons, hstep]
    dsimp only
    rw [hrun]
    dsimp only
    by_cases ha : op.isAlloc = true
    · simp only [ha, if_true] at hidx ⊢
      rw [hidx, Nat.add_comm 1, List.range'_succ]
      rfl
    · simp only [ha] at hidx ⊢
      simp [hidx]

theorem MatMap.erase_insert_empty (k : Nat) (v : MatrixXd) :
    (MatMap.empty.insert k v).erase k = MatMap.empty := by
  funext j
  by_cases h : j = k <;> simp [MatMap.erase, MatMap.insert, MatMap.empty, h]

theorem MatMap.erase_empty (k : Nat) : MatMap.empty.erase k = MatMap.empty := by
  funext j
  simp [MatMap.erase, MatMap.empty]

theorem churn_ops_no_clear : ∀ (n : Nat), ∀ op ∈ churn_ops n, op.isClear = false := by
  intro n
  induction n with
  | zero => intro op h; simp [churn_ops] at h
  | succ n ih =>
    intro op h
    simp only [churn_ops, List.mem_append, List.mem_cons, List.mem_singleton,
      List.not_mem_nil, or_false] at h
    rcases h with h | h | h
    · exact ih op h
    · subst h; rfl
    · subst h; rfl

theorem run_churn (K : Kernels) : ∀ (n : Nat), n < 2 ^ 64 →
    run K State.init (churn_ops n) =
      some (⟨n, MatMap.empty, MatMap.empty⟩, List.range' 1 n) := by
  intro n
  induction n with
  | zero => intro _; rfl
  | succ n ih =>
    intro hn
    have hstep : alloc_matrix ⟨n, MatMap.empty, MatMap.empty⟩ sample_mat =
        some (n + 1, ⟨n + 1, MatMap.empty.insert (n + 1) (convert_matrix sample_mat),
          MatMap.empty⟩) :=
      alloc_matrix_next ⟨n, MatMap.empty, MatMap.empty⟩ sample_mat hn rfl
    rw [churn_ops, run_append, ih (by omega)]
    simp only [run, step, hstep, Option.map_some', delete_matrix, MatMap.erase_insert_empty,
      MatMap.erase_empty, List.range'_1_concat, List.append_nil, List.singleton_append]
    rw [Nat.add_comm 1 n]

theorem alloc_matrix_wrapped (mat : t_mat) :
    alloc_matrix ⟨2 ^ 64 - 1, MatMap.empty, MatMap.empty⟩ mat =
      some (1, ⟨1, MatMap.empty.insert 1 (convert_matrix mat), MatMap.empty⟩) := by
  show alloc_loop (convert_matrix mat) (2 ^ 64 - 2 + 1 + 1) _ = _
  rw [alloc_loop_succ, alloc_loop_succ]
  simp [MatMap.empty]

theorem run_wrap_ops (K : Kernels) :
    run K State.init wrap_ops =
      some (⟨1, MatMap.empty.insert 1 (convert_matrix sample_mat), MatMap.empty⟩,
        List.range' 1 (2 ^ 64 - 1) ++ [1]) := by
  rw [wrap_ops, run_append, run_churn K (2 ^ 64 - 1) (by norm_num)]
  simp only [run, step, alloc_matrix_wrapped, Option.map_some', List.append_nil]

/-- C3, as amended: in a sequence of calls from process start that has no
`clear_matrices` and fewer than `2 ^ 64` calls of `alloc_matrix`, every call
returns, and the handles returned are 1, 2, 3, ... in order, so each is
strictly greater than all earlier ones. -/
theorem handles_increase_before_wrap (K : Kernels) (ops : List Op)
    (hclear : ∀ op ∈ ops, op.isClear = false) (hcount : allocCount ops < 2 ^ 64) :
    ∃ (s1 : State) (hs : List Nat), run K State.init ops = some (s1, hs) ∧
      hs = List.range' 1 (allocCount ops) ∧ hs.Pairwise (fun a b => a < b) := by
  obtain ⟨s1, hrun, _, _⟩ := run_no_wrap K ops State.init hclear
    (by simpa [State.init] using hcount) (fun k _ => rfl)
  exact ⟨s1, _, hrun, rfl, List.pairwise_lt_range' _ _⟩

/-- Two allocations with a deletion and a precomputation in between. -/
theorem handles_increase_before_wrap_witness :
    ∃ (s1 : State) (hs : List Nat),
      run diagKernels State.init
        [Op.alloc sample_mat, Op.delete 1, Op.alloc sample_mat, Op.compute_qr 2] =
          some (s1, hs) ∧
      hs = List.range' 1 2 ∧ hs.Pairwise (fun a b => a < b) :=
  handles_increase_before_wrap diagKernels
    [Op.alloc sample_mat, Op.delete 1, Op.alloc sample_mat, Op.compute_qr 2]
    (by decide) (by decide)

/-- C3 fails as stated: the sequence `wrap_ops` has no `clear_matrices`, and
its last `alloc_matrix` returns 1 after the handles 1 to `2 ^ 64 - 1` were
returned, so the handles are not strictly increasing. -/
theorem handles_not_increasing_after_wrap :
    (∀ op ∈ wrap_ops, op.isClear = false) ∧
    ∀ K : Kernels, ∃ (s1 : State) (hs : List Nat),
      run K State.init wrap_ops = some (s1, hs ++ [1]) ∧ 2 ^ 64 - 1 ∈ hs ∧
        ¬ (hs ++ [1]).Pairwise (fun a b => a < b) := by
  constructor
  · intro op h
    simp only [wrap_ops, List.mem_append, List.mem_singleton] at h
    rcases h with h | h
    · exact churn_ops_no_clear _ op h
    · subst h; rfl
  · intro K
    refine ⟨_, List.range' 1 (2 ^ 64 - 1), run_wrap_ops K, ?_, ?_⟩
    · rw [List.mem_range'_1]; norm_num
    · intro hp
      rw [List.pairwise_append] at hp
      have := hp.2.2 1 (by rw [List.mem_range'_1]; norm_num) 1 (List.mem_singleton.mpr rfl)
      omega

/-! ## The cache invariant -/

theorem CacheOK_init (K : Kernels) : CacheOK K State.init := by
  intro h q hq
  simp [State.init, MatMap.empty] at hq

theorem CacheOK_cache_insert (K : Kernels) (s : State) (id : Nat) (m : MatrixXd)
    (hm : s.matrices id = some m) (hok : CacheOK K s) :
    CacheOK K { s with qr_matrices := s.qr_matrices.insert id (cca_qr K m) } := by
  intro h q hq
  by_cases hh : h = id
  · subst hh
    rw [show ({ s with qr_matrices := s.qr_matrices.insert h (cca_qr K m) } : State).qr_matrices h
      = some (cca_qr K m) from MatMap.insert_self _ _ _] at hq
    exact ⟨m, hm, (Option.some.inj hq).symm⟩
  · rw [show ({ s with qr_matrices := s.qr_matrices.insert id (cca_qr K m) } : State).qr_matrices h
      = s.qr_matrices h from MatMap.insert_other _ _ _ _ hh] at hq
    exact hok h q hq

theorem retrieve_allocated_matrix_ok (s : State) (id : Nat) (m : MatrixXd)
    (h : retrieve_allocated_matrix s id = Except.ok m) : s.matrices id = some m := by
  unfold retrieve_allocated_matrix MatMap.find at h
  split at h
  · cases h
  · rename_i m1 hm
    cases h
    exact hm

theorem CacheOK_retrieve (K : Kernels) (s : State) (t : t_mat) (hok : CacheOK K s) :
    CacheOK K (retrieve_cca_qr_matrix K s t).2 := by
  unfold retrieve_cca_qr_matrix
  split
  · exact hok
  · split
    · split
      · exact hok
      · rename_i m hm
        exact CacheOK_cache_insert K s t.id m (retrieve_allocated_matrix_ok s t.id m hm) hok
    · exact hok

theorem CacheOK_compute (K : Kernels) (s : State) (id : Nat) (hok : CacheOK K s) :
    CacheOK K (compute_cca_qr K s id).2 := by
  unfold compute_cca_qr
  split
  · exact hok
  · rename_i m hm
    exact CacheOK_cache_insert K s id m (retrieve_allocated_matrix_ok s id m hm) hok

theorem CacheOK_correlate (K : Kernels) (s : State) (x y : t_mat) (hok : CacheOK K s) :
    CacheOK K (canonical_correlation K s x y).2 := by
  rcases canonical_correlation_state K s x y with h | h
  · rw [h]; exact CacheOK_retrieve K s x hok
  · rw [h]; exact CacheOK_retrieve K _ y (CacheOK_retrieve K s x hok)

theorem CacheOK_delete (K : Kernels) (s : State) (index : Nat) (hok : CacheOK K s) :
    CacheOK K (delete_matrix s index) := by
  intro h q hq
  have hq1 : (s.qr_matrices.erase index) h = some q := hq
  by_cases hh : h = index
  · subst hh; rw [MatMap.erase_self] at hq1; cases hq1
  · rw [MatMap.erase_other _ _ _ hh] at hq1
    obtain ⟨m, hm, hqm⟩ := hok h q hq1
    refine ⟨m, ?_, hqm⟩
    show (s.matrices.erase index) h = some m
    rw [MatMap.erase_other _ _ _ hh]; exact hm

theorem CacheOK_alloc (K : Kernels) (s : State) (mat : t_mat) (h : Nat) (s1 : State)
    (hr : alloc_matrix s mat = some (h, s1)) (hok : CacheOK K s) : CacheOK K s1 := by
  obtain ⟨_, _, hnone, rfl⟩ := alloc_matrix_sound s mat h s1 hr
  intro k q hq
  obtain ⟨m, hm, hqm⟩ := hok k q hq
  have hk : k ≠ h := by
    intro hkh; subst hkh; rw [hnone] at hm; cases hm
  refine ⟨m, ?_, hqm⟩
  show (s.matrices.insert h (convert_matrix mat)) k = some m
  rw [MatMap.insert_other _ _ _ _ hk]; exact hm

theorem CacheOK_step (K : Kernels) (s s1 : State) (op : Op) (hs : List Nat)
    (hstep : step K s op = some (s1, hs)) (hok : CacheOK K s) : CacheOK K s1 := by
  cases op with
  | alloc mat =>
    simp only [step, Option.map_eq_some'] at hstep
    obtain ⟨⟨h, s2⟩, hr, heq⟩ := hstep
    simp only [Prod.mk.injEq] at heq
    obtain ⟨rfl, _⟩ := heq
    exact CacheOK_alloc K s mat h s2 hr hok
  | delete index =>
    simp only [step, Option.some.injEq, Prod.mk.injEq] at hstep
    rw [← hstep.1]; exact CacheOK_delete K s index hok
  | clear =>
    simp only [step, Option.some.injEq, Prod.mk.injEq] at hstep
    rw [← hstep.1]; exact CacheOK_init K
  | compute_qr id =>
    simp only [step, Option.some.injEq, Prod.mk.injEq] at hstep
    rw [← hstep.1]; exact CacheOK_compute K s id hok
  | correlate x y =>
    simp only [step, Option.some.injEq, Prod.mk.injEq] at hstep
    rw [← hstep.1]; exact CacheOK_correlate K s x y hok

theorem CacheOK_reachable (K : Kernels) (s : State) (hr : Reachable K s) : CacheOK K s := by
  induction hr with
  | init => exact CacheOK_init K
  | step s s1 op hs _ hstep ih => exact CacheOK_step K s s1 op hs hstep ih

theorem retrieve_cca_qr_matrix_agree (K : Kernels) (s1 s2 : State) (t : t_mat)
    (h1 : CacheOK K s1) (h2 : CacheOK K s2) (hm : s1.matrices = s2.matrices) :
    (retrieve_cca_qr_matrix K s1 t).1 = (retrieve_cca_qr_matrix K s2 t).1 := by
  have key : ∀ (s : State), CacheOK K s →
      (retrieve_cca_qr_matrix K s t).1 =
        if t.id > 0 then
          match s.matrices t.id with
          | none => Except.error Exn.not_found
          | some m => Except.ok (cca_qr K m)
        else Except.ok (cca_qr K (convert_matrix t)) := by
    intro s hs
    unfold retrieve_cca_qr_matrix
    by_cases hid : t.id > 0
    · simp only [hid, if_true, MatMap.find]
      cases hq : s.qr_matrices t.id with
      | some q =>
        obtain ⟨m, hm1, hqm⟩ := hs t.id q hq
        simp only [hm1, hqm]
      | none =>
        simp only [retrieve_allocated_matrix, MatMap.find]
        cases s.matrices t.id <;> rfl
    · simp only [hid, if_false]
  rw [key s1 h1, key s2 h2, hm]

theorem canonical_correlation_result (K : Kernels) (s : State) (x y : t_mat) :
    (canonical_correlation K s x y).1 =
      match (retrieve_cca_qr_matrix K s x).1 with
      | Except.error e => Except.error (Fault.thrown e)
      | Except.ok qx =>
        match (retrieve_cca_qr_matrix K (retrieve_cca_qr_matrix K s x).2 y).1 with
        | Except.error e => Except.error (Fault.thrown e)
        | Except.ok qy =>
          match cca_svd K qx qy with
          | none => Except.error Fault.invalid_product
          | some vector => Except.ok (max_in_vector vector) := by
  unfold canonical_correlation
  split
  · rename_i e s1 h1; rw [h1]
  · rename_i qx s1 h1
    rw [h1]
    dsimp only
    split
    · rename_i e s2 h2; rw [h2]
    · rename_i qy s2 h2
      rw [h2]
      dsimp only
      split <;> rfl

theorem canonical_correlation_agree (K : Kernels) (s1 s2 : State) (x y : t_mat)
    (h1 : CacheOK K s1) (h2 : CacheOK K s2) (hm : s1.matrices = s2.matrices) :
    (canonical_correlation K s1 x y).1 = (canonical_correlation K s2 x y).1 := by
  rw [canonical_correlation_result, canonical_correlation_result,
    retrieve_cca_qr_matrix_agree K s1 s2 x h1 h2 hm,
    retrieve_cca_qr_matrix_agree K (retrieve_cca_qr_matrix K s1 x).2
      (retrieve_cca_qr_matrix K s2 x).2 y (CacheOK_retrieve K s1 x h1)
      (CacheOK_retrieve K s2 x h2)
      ((retrieve_cca_qr_matrix_frame K s1 x).2.trans
        (hm.trans (retrieve_cca_qr_matrix_frame K s2 x).2.symm))]

theorem sample_state_reachable (K : Kernels) : Reachable K sample_state :=
  Reachable.step State.init sample_state (Op.alloc sample_mat) [1] Reachable.init rfl

theorem cached_state_reachable : Reachable diagKernels cached_state :=
  Reachable.step sample_state cached_state (Op.compute_qr 1) []
    (sample_state_reachable diagKernels) rfl

/-- C6: in every state reached from process start by a sequence of calls of
`alloc_matrix`, `delete_matrix`, `clear_matrices`, `compute_cca_qr` and
`canonical_correlation`, throwing or not, each key of `qr_matrices` is a key
of `matrices`. -/
theorem no_stale_cache (K : Kernels) (s : State) (hr : Reachable K s) (h : Nat)
    (hc : s.qr_matrices.find h ≠ none) : s.matrices.find h ≠ none := by
  cases hq : s.qr_matrices h with
  | none => exact absurd hq hc
  | some q =>
    obtain ⟨m, hm, _⟩ := CacheOK_reachable K s hr h q hq
    simp [MatMap.find, hm]

/-- The state after one allocation and one precomputation. -/
theorem no_stale_cache_witness :
    cached_state.qr_matrices.find 1 ≠ none ∧ cached_state.matrices.find 1 ≠ none :=
  ⟨by simp [cached_state, compute_cca_qr, retrieve_allocated_matrix, sample_state,
      MatMap.find, MatMap.insert],
    no_stale_cache diagKernels cached_state cached_state_reachable 1
      (by simp [cached_state, compute_cca_qr, retrieve_allocated_matrix, sample_state,
        MatMap.find, MatMap.insert])⟩

/-- C7: in every reachable state each cached decomposition is `cca_qr` of the
matrix stored under the same handle, and `canonical_correlation x y` returns
the same result whether or not `compute_cca_qr` was called on the handle of
`x` just before. -/
theorem cache_correct (K : Kernels) (s : State) (hr : Reachable K s) :
    (∀ (h : Nat) (q : MatrixXd), s.qr_matrices.find h = some q →
      ∃ m, s.matrices.find h = some m ∧ q = cca_qr K m) ∧
    ∀ (x y : t_mat),
      (canonical_correlation K (compute_cca_qr K s x.id).2 x y).1 =
        (canonical_correlation K s x y).1 := by
  have hok := CacheOK_reachable K s hr
  refine ⟨hok, ?_⟩
  intro x y
  exact canonical_correlation_agree K _ s x y (CacheOK_compute K s x.id hok) hok
    (compute_cca_qr_frame K s x.id).2

/-- Correlating handle 1 with inline data, with and without precomputation. -/
theorem cache_correct_witness :
    (canonical_correlation diagKernels (compute_cca_qr diagKernels sample_state 1).2
        handle_one sample_mat).1 =
      (canonical_correlation diagKernels sample_state handle_one sample_mat).1 :=
  (cache_correct diagKernels sample_state (sample_state_reachable diagKernels)).2
    handle_one sample_mat

/-! ## Clamping of the correlation score -/

theorem F64.lt_false_of_le (a b : F64) (h : F64.le a b = true) : F64.lt b a = false := by
  cases a <;> cases b <;> simp_all [F64.le, F64.lt]

theorem F64.eq_of_le_of_not_lt (a b : F64) (h : F64.le a b = true) (h2 : F64.lt a b = false) :
    a = b := by
  cases a <;> cases b <;> simp_all [F64.le, F64.lt]
  exact le_antisymm h h2

theorem foldl_max_ne_nan : ∀ (v : VectorXd) (acc : F64), acc ≠ F64.nan →
    v.foldl (fun max_value x => F64.max max_value x) acc ≠ F64.nan := by
  intro v
  induction v with
  | nil => intro acc h; exact h
  | cons x xs ih =>
    intro acc h
    rw [List.foldl_cons]
    apply ih
    unfold F64.max
    split
    · rename_i hlt
      intro hx; subst hx
      cases acc <;> simp [F64.lt] at hlt
    · exact h

theorem foldl_max_eq : ∀ (v : VectorXd) (acc m : F64), F64.le acc m = true →
    (∀ x ∈ v, F64.le x m = true) → (acc = m ∨ m ∈ v) →
    v.foldl (fun max_value x => F64.max max_value x) acc = m := by
  intro v
  induction v with
  | nil =>
    intro acc m _ _ h
    rcases h with h | h
    · exact h
    · cases h
  | cons x xs ih =>
    intro acc m hacc hall hm
    rw [List.foldl_cons]
    have hx : F64.le x m = true := hall x (List.mem_cons_self _ _)
    apply ih
    · unfold F64.max; split
      · exact hx
      · exact hacc
    · intro z hz; exact hall z (List.mem_cons_of_mem _ hz)
    · rcases hm with hm | hm
      · left; subst hm
        simp [F64.max, F64.lt_false_of_le x acc hx]
      · rcases List.mem_cons.mp hm with hmx | hmx
        · left; subst hmx
          unfold F64.max; split
          · rfl
          · rename_i hlt
            exact F64.eq_of_le_of_not_lt acc m hacc (by simpa using hlt)
        · right; exact hmx

theorem clamp_range (a : F64) (h : a ≠ F64.nan) :
    ∃ q, F64.max (F64.min a (F64.fin 1)) (F64.fin 0) = F64.fin q ∧ 0 ≤ q ∧ q ≤ 1 := by
  cases a with
  | nan => exact absurd rfl h
  | ninf => exact ⟨0, by simp [F64.max, F64.min, F64.lt], le_refl _, zero_le_one⟩
  | pinf => exact ⟨1, by simp [F64.max, F64.min, F64.lt], zero_le_one, le_refl _⟩
  | fin q =>
    by_cases h1 : 1 < q
    · exact ⟨1, by simp [F64.max, F64.min, F64.lt, h1], zero_le_one, le_refl _⟩
    · by_cases h0 : q < 0
      · exact ⟨0, by simp [F64.max, F64.min, F64.lt, h1, h0], le_refl _, zero_le_one⟩
      · exact ⟨q, by simp [F64.max, F64.min, F64.lt, h1, h0], not_lt.mp h0, not_lt.mp h1⟩

theorem clamp_value (m : F64) :
    (F64.le (F64.fin 0) m = true → F64.le m (F64.fin 1) = true →
      F64.max (F64.min m (F64.fin 1)) (F64.fin 0) = m) ∧
    (F64.lt (F64.fin 1) m = true → F64.max (F64.min m (F64.fin 1)) (F64.fin 0) = F64.fin 1) ∧
    (F64.lt m (F64.fin 0) = true → F64.max (F64.min m (F64.fin 1)) (F64.fin 0) = F64.fin 0) := by
  cases m with
  | nan => simp [F64.le, F64.lt]
  | ninf => simp [F64.le, F64.lt, F64.max, F64.min]
  | pinf => simp [F64.le, F64.lt, F64.max, F64.min]
  | fin q =>
    by_cases h1 : 1 < q
    · have h0 : ¬ q < 0 := by linarith
      have h2 : ¬ q ≤ 1 := by linarith
      simp [F64.le, F64.lt, F64.max, F64.min, h1, h0, h2]
    · by_cases h0 : q < 0
      · have h2 : ¬ 0 ≤ q := by linarith
        simp [F64.le, F64.lt, F64.max, F64.min, h1, h0, h2]
      · simp [F64.le, F64.lt, F64.max, F64.min, h1, h0]

theorem canonical_correlation_ok_value (K : Kernels) (s : State) (x y : t_mat) (r : F64)
    (h : (canonical_correlation K s x y).1 = Except.ok r) : ∃ v, r = max_in_vector v := by
  rw [canonical_correlation_result] at h
  cases hx : (retrieve_cca_qr_matrix K s x).1 with
  | error e => rw [hx] at h; cases h
  | ok qx =>
    rw [hx] at h
    dsimp only at h
    cases hy : (retrieve_cca_qr_matrix K (retrieve_cca_qr_matrix K s x).2 y).1 with
    | error e => rw [hy] at h; cases h
    | ok qy =>
      rw [hy] at h
      dsimp only at h
      cases hv : cca_svd K qx qy with
      | none => rw [hv] at h; cases h
      | some vector =>
        rw [hv] at h
        cases h
        exact ⟨vector, rfl⟩

/-- C9: `max_in_vector` returns a finite value between 0 and 1 for every
vector; it returns 0 for the empty vector; and when the vector has a maximum
entry `m` (an entry that every entry is `<=` to), it returns `m` if
`0 <= m <= 1`, returns 1 if `1 < m` and returns 0 if `m < 0`.  Every value
that `canonical_correlation` returns is such a result, so it lies between 0
and 1. -/
theorem max_in_vector_clamped :
    (∀ v : VectorXd,
      (∃ q, max_in_vector v = F64.fin q ∧ 0 ≤ q ∧ q ≤ 1) ∧
      (v = [] → max_in_vector v = F64.fin 0) ∧
      (∀ m, m ∈ v → (∀ x ∈ v, F64.le x m = true) →
        (F64.le (F64.fin 0) m = true → F64.le m (F64.fin 1) = true → max_in_vector v = m) ∧
        (F64.lt (F64.fin 1) m = true → max_in_vector v = F64.fin 1) ∧
        (F64.lt m (F64.fin 0) = true → max_in_vector v = F64.fin 0))) ∧
    (∀ (K : Kernels) (s : State) (x y : t_mat) (r : F64),
      (canonical_correlation K s x y).1 = Except.ok r → ∃ q, r = F64.fin q ∧ 0 ≤ q ∧ q ≤ 1) := by
  have hrange : ∀ v : VectorXd, ∃ q, max_in_vector v = F64.fin q ∧ 0 ≤ q ∧ q ≤ 1 :=
    fun v => clamp_range _ (foldl_max_ne_nan v F64.ninf (by simp))
  refine ⟨fun v => ⟨hrange v, ?_, ?_⟩, ?_⟩
  · intro hv; subst hv
    simp [max_in_vector, F64.max, F64.min, F64.lt]
  · intro m hm hall
    have hfold : v.foldl (fun max_value x => F64.max max_value x) F64.ninf = m := by
      apply foldl_max_eq v F64.ninf m _ hall (Or.inr hm)
      have := hall m hm
      cases m <;> simp_all [F64.le]
    unfold max_in_vector
    simp only [hfold]
    exact clamp_value m
  · intro K s x y r hr
    obtain ⟨v, rfl⟩ := canonical_correlation_ok_value K s x y r hr
    exact hrange v

/-- A vector whose maximum 3 exceeds 1 is clamped to 1. -/
theorem max_in_vector_clamped_witness :
    F64.lt (F64.fin 1) (F64.fin 3) = true ∧
      max_in_vector [F64.fin 0, F64.fin 3, F64.fin 1, F64.fin 2] = F64.fin 1 :=
  ⟨by simp [F64.lt],
    ((max_in_vector_clamped.1 [F64.fin 0, F64.fin 3, F64.fin 1, F64.fin 2]).2.2
      (F64.fin 3) (by simp) (by simp [F64.le]; norm_num)).2.1 (by simp [F64.lt])⟩

/-! ## Failures of the two scoring functions -/

theorem retrieve_cca_qr_matrix_cases (K : Kernels) (s : State) (t : t_mat) :
    (Unknown s t ∧ retrieve_cca_qr_matrix K s t = (Except.error Exn.not_found, s)) ∨
    (¬ Unknown s t ∧ ∃ q, (retrieve_cca_qr_matrix K s t).1 = Except.ok q ∧
      (∀ u, Unknown (retrieve_cca_qr_matrix K s t).2 u ↔ Unknown s u)) := by
  by_cases hid : t.id > 0
  · cases hq : s.qr_matrices t.id with
    | some q =>
      right
      refine ⟨fun h => ?_, q, ?_, ?_⟩
      · have := h.2.1
        simp [MatMap.find, hq] at this
      · simp [retrieve_cca_qr_matrix, hid, MatMap.find, hq]
      · intro u
        simp [retrieve_cca_qr_matrix, hid, MatMap.find, hq]
    | none =>
      cases hm : s.matrices t.id with
      | none =>
        left
        refine ⟨⟨hid, hq, hm⟩, ?_⟩
        simp [retrieve_cca_qr_matrix, hid, MatMap.find, hq, retrieve_allocated_matrix, hm]
      | some m =>
        right
        refine ⟨fun h => ?_, cca_qr K m, ?_, ?_⟩
        · have := h.2.2
          simp [MatMap.find, hm] at this
        · simp [retrieve_cca_qr_matrix, hid, MatMap.find, hq, retrieve_allocated_matrix, hm]
        · intro u
          simp only [retrieve_cca_qr_matrix, hid, MatMap.find, hq, retrieve_allocated_matrix, hm,
            if_true, Unknown]
          by_cases hu : u.id = t.id
          · simp [hu, hm]
          · simp [MatMap.insert, hu]
  · right
    refine ⟨fun h => hid h.1, cca_qr K (convert_matrix t), ?_, ?_⟩
    · simp [retrieve_cca_qr_matrix, hid]
    · intro u
      simp [retrieve_cca_qr_matrix, hid]

theorem canonical_correlation_snd (K : Kernels) (s : State) (x y : t_mat) :
    (canonical_correlation K s x y).2 =
      match (retrieve_cca_qr_matrix K s x).1 with
      | Except.error _ => (retrieve_cca_qr_matrix K s x).2
      | Except.ok _ => (retrieve_cca_qr_matrix K (retrieve_cca_qr_matrix K s x).2 y).2 := by
  unfold canonical_correlation
  split
  · rename_i e s1 h1; rw [h1]
  · rename_i qx s1 h1
    rw [h1]
    dsimp only
    split
    · rename_i e s2 h2; rw [h2]
    · rename_i qy s2 h2
      rw [h2]
      dsimp only
      split <;> rfl

theorem canonical_correlation_inline (K : Kernels) (s : State) (x y : t_mat)
    (hx : x.id = 0) (hy : y.id = 0) : (canonical_correlation K s x y).2 = s := by
  rw [canonical_correlation_snd]
  simp [retrieve_cca_qr_matrix, hx, hy]

/-- C14: `retrieve_allocated_matrix` throws the not-found exception exactly
when the handle is not a key of `matrices`, and otherwise returns the matrix
stored under the handle; it is a function of the state that returns no new
state, so counter, repository and cache stay as they were. -/
theorem fetch_not_found_iff (s : State) (h : Nat) :
    (retrieve_allocated_matrix s h = Except.error Exn.not_found ↔ s.matrices.find h = none) ∧
    (∀ m, retrieve_allocated_matrix s h = Except.ok m ↔ s.matrices.find h = some m) := by
  unfold retrieve_allocated_matrix
  cases hm : s.matrices.find h with
  | none => simp
  | some m => simp

theorem alloc_loop_full (matrix : MatrixXd) :
    ∀ (fuel : Nat) (s : State),
      (∀ k, 0 < k → k < 2 ^ 64 → s.matrices k ≠ none) → alloc_loop matrix fuel s = none := by
  intro fuel
  induction fuel with
  | zero => intro s _; rfl
  | succ n ih =>
    intro s hfull
    rw [alloc_loop_succ]
    split
    · exact ih _ hfull
    · rename_i h0
      have hused := hfull ((s.index + 1) % 2 ^ 64) (Nat.pos_of_ne_zero h0)
        (Nat.mod_lt _ (by norm_num))
      rw [if_pos hused]
      exact ih _ hfull

theorem alloc_loop_mono (matrix : MatrixXd) :
    ∀ (fuel : Nat) (s : State) (r : Nat × State),
      alloc_loop matrix fuel s = some r → alloc_loop matrix (fuel + 1) s = some r := by
  intro fuel
  induction fuel with
  | zero => intro s r h; simp [alloc_loop] at h
  | succ n ih =>
    intro s r h
    rw [alloc_loop_succ] at h
    rw [alloc_loop_succ]
    split
    · rename_i h0; rw [if_pos h0] at h; exact ih _ r h
    · rename_i h0
      rw [if_neg h0] at h
      split
      · rename_i hused; rw [if_pos hused] at h; exact ih _ r h
      · rename_i hfree; rw [if_neg hfree] at h; exact h

theorem free_id_of_few_live (s : State)
    (hcard : ((Finset.Ico 1 (2 ^ 64)).filter
      (fun k => (s.matrices.find k).isSome = true)).card < 2 ^ 64 - 1) :
    ∃ k, 0 < k ∧ k < 2 ^ 64 ∧ s.matrices.find k = none := by
  by_contra hno
  have hall : ∀ k ∈ Finset.Ico 1 (2 ^ 64), (s.matrices.find k).isSome = true := by
    intro k hk
    rw [Finset.mem_Ico] at hk
    cases hm : s.matrices.find k with
    | none => exact absurd ⟨k, by omega, hk.2, hm⟩ hno
    | some m => rfl
  rw [Finset.filter_true_of_mem hall, Nat.card_Ico] at hcard
  omega

/-- C18: the loop of `alloc_matrix` terminates (some amount of fuel makes it
return) exactly when some non-zero 64-bit id is not a key of `matrices`; in
that case `2 ^ 64` iterations are enough, and more fuel never changes the
result.  When every non-zero id is in use, no amount of fuel makes it
return.  A free id exists in particular when fewer than `2 ^ 64 - 1` of the
non-zero ids are keys. -/
theorem alloc_loop_terminates_iff (matrix : MatrixXd) (s : State) :
    ((∃ fuel, (alloc_loop matrix fuel s).isSome = true) ↔
      ∃ k, 0 < k ∧ k < 2 ^ 64 ∧ s.matrices.find k = none) ∧
    ((∃ k, 0 < k ∧ k < 2 ^ 64 ∧ s.matrices.find k = none) →
      (alloc_loop matrix (2 ^ 64) s).isSome = true) ∧
    ((∀ k, 0 < k → k < 2 ^ 64 → s.matrices.find k ≠ none) →
      ∀ fuel, alloc_loop matrix fuel s = none) ∧
    (∀ fuel r, alloc_loop matrix fuel s = some r → alloc_loop matrix (fuel + 1) s = some r) ∧
    (((Finset.Ico 1 (2 ^ 64)).filter
        (fun k => (s.matrices.find k).isSome = true)).card < 2 ^ 64 - 1 →
      (alloc_loop matrix (2 ^ 64) s).isSome = true) := by
  have hsome : (∃ k, 0 < k ∧ k < 2 ^ 64 ∧ s.matrices.find k = none) →
      (alloc_loop matrix (2 ^ 64) s).isSome = true := by
    intro hfree
    obtain ⟨k, hk0, hk, hfree⟩ := hfree
    apply alloc_loop_complete
    have hk1 : (s.index + 1 + (k + 2 ^ 64 - (s.index + 1) % 2 ^ 64) % 2 ^ 64) % 2 ^ 64 = k := by
      omega
    refine ⟨(k + 2 ^ 64 - (s.index + 1) % 2 ^ 64) % 2 ^ 64, Nat.mod_lt _ (by norm_num), ?_, ?_⟩
    · rw [hk1]; omega
    · rw [hk1]; exact hfree
  refine ⟨⟨?_, fun h => ⟨2 ^ 64, hsome h⟩⟩, hsome,
    fun hfull fuel => alloc_loop_full matrix fuel s hfull,
    fun fuel r => alloc_loop_mono matrix fuel s r,
    fun hcard => hsome (free_id_of_few_live s hcard)⟩
  rintro ⟨fuel, hf⟩
  by_contra hno
  have hfull : ∀ k, 0 < k → k < 2 ^ 64 → s.matrices k ≠ none := by
    intro k hk0 hk hnone
    exact hno ⟨k, hk0, hk, hnone⟩
  rw [alloc_loop_full matrix fuel s hfull] at hf
  cases hf

/-- With every id in use the loop has not returned after `2 ^ 64 + 7`
iterations. -/
theorem alloc_loop_terminates_iff_witness :
    alloc_loop (convert_matrix sample_mat) (2 ^ 64 + 7) full_state = none :=
  (alloc_loop_terminates_iff (convert_matrix sample_mat) full_state).2.2.1
    (fun _ _ _ h => by cases h) (2 ^ 64 + 7)

/-! ## What each mutation leaves unchanged -/

theorem retrieve_cca_qr_matrix_cache (K : Kernels) (s : State) (t : t_mat) :
    (retrieve_cca_qr_matrix K s t).2 = s ∨
    (0 < t.id ∧ s.qr_matrices t.id = none ∧
      ∃ q, (retrieve_cca_qr_matrix K s t).2 =
        { s with qr_matrices := s.qr_matrices.insert t.id q }) := by
  by_cases hid : t.id > 0
  · cases hq : s.qr_matrices t.id with
    | some q =>
      left
      simp [retrieve_cca_qr_matrix, hid, MatMap.find, hq]
    | none =>
      cases hm : s.matrices t.id with
      | none =>
        left
        simp [retrieve_cca_qr_matrix, hid, MatMap.find, hq, retrieve_allocated_matrix, hm]
      | some m =>
        right
        refine ⟨hid, rfl, cca_qr K m, ?_⟩
        simp [retrieve_cca_qr_matrix, hid, MatMap.find, hq, retrieve_allocated_matrix, hm]
  · left
    simp [retrieve_cca_qr_matrix, hid]

theorem retrieve_cca_qr_matrix_cache_keep (K : Kernels) (s : State) (t : t_mat) (h : Nat) :
    ((retrieve_cca_qr_matrix K s t).2.qr_matrices h = s.qr_matrices h) ∨
    (0 < h ∧ h = t.id ∧ s.qr_matrices h = none) := by
  rcases retrieve_cca_qr_matrix_cache K s t with he | ⟨hid, hnone, q, he⟩
  · left; rw [he]
  · by_cases hh : h = t.id
    · right; subst hh; exact ⟨hid, rfl, hnone⟩
    · left; rw [he]; exact MatMap.insert_other _ _ _ _ hh

theorem canonical_correlation_cache_keep (K : Kernels) (s : State) (x y : t_mat) (h : Nat) :
    ((canonical_correlation K s x y).2.qr_matrices h = s.qr_matrices h) ∨
    (0 < h ∧ (h = x.id ∨ h = y.id) ∧ s.qr_matrices h = none) := by
  have hx := retrieve_cca_qr_matrix_cache_keep K s x h
  have hy := retrieve_cca_qr_matrix_cache_keep K (retrieve_cca_qr_matrix K s x).2 y h
  rcases canonical_correlation_state K s x y with he | he
  · rw [he]
    rcases hx with hx | ⟨h0, hh, hn⟩
    · left; exact hx
    · right; exact ⟨h0, Or.inl hh, hn⟩
  · rw [he]
    rcases hx with hx | ⟨h0, hh, hn⟩
    · rcases hy with hy | ⟨h0, hh, hn⟩
      · left; rw [hy, hx]
      · right; rw [hx] at hn; exact ⟨h0, Or.inr hh, hn⟩
    · right; exact ⟨h0, Or.inl hh, hn⟩

/-- C17: `canonical_correlation`, whether it returns or throws, leaves
`matrices` and `index` as they were, keeps every existing entry of
`qr_matrices` with its value, and changes `qr_matrices` only at a positive
handle that is the handle of one of its two descriptors and had no entry
before; with two inline descriptors (handle 0) the whole state is unchanged. -/
theorem correlation_memo_frame (K : Kernels) (s : State) (x y : t_mat) :
    (canonical_correlation K s x y).2.matrices = s.matrices ∧
    (canonical_correlation K s x y).2.index = s.index ∧
    (∀ h q, s.qr_matrices.find h = some q →
      (canonical_correlation K s x y).2.qr_matrices.find h = some q) ∧
    (∀ h, (canonical_correlation K s x y).2.qr_matrices.find h ≠ s.qr_matrices.find h →
      0 < h ∧ (h = x.id ∨ h = y.id) ∧ s.qr_matrices.find h = none) ∧
    (x.id = 0 → y.id = 0 → (canonical_correlation K s x y).2 = s) := by
  refine ⟨(canonical_correlation_frame K s x y).2, (canonical_correlation_frame K s x y).1,
    ?_, ?_, ?_⟩
  · intro h q hq
    rcases canonical_correlation_cache_keep K s x y h with hk | ⟨_, _, hn⟩
    · exact hk.trans hq
    · rw [show s.qr_matrices.find h = s.qr_matrices h from rfl, hn] at hq
      cases hq
  · intro h hne
    rcases canonical_correlation_cache_keep K s x y h with hk | hk
    · exact absurd hk hne
    · exact hk
  · intro hx hy
    exact canonical_correlation_inline K s x y hx hy

/-- After one allocation, correlating handle 1 with inline data writes the
cache at handle 1 only. -/
theorem correlation_memo_frame_witness :
    (canonical_correlation diagKernels sample_state handle_one sample_mat).2.qr_matrices.find 1 ≠
        sample_state.qr_matrices.find 1 ∧
      (0 < 1 ∧ (1 = handle_one.id ∨ 1 = sample_mat.id) ∧
        sample_state.qr_matrices.find 1 = none) :=
  ⟨by simp [canonical_correlation_snd, retrieve_cca_qr_matrix, retrieve_allocated_matrix,
      sample_state, handle_one, sample_mat, MatMap.find, MatMap.insert, MatMap.empty],
    (correlation_memo_frame diagKernels sample_state handle_one sample_mat).2.2.2.1 1
      (by simp [canonical_correlation_snd, retrieve_cca_qr_matrix, retrieve_allocated_matrix,
        sample_state, handle_one, sample_mat, MatMap.find, MatMap.insert, MatMap.empty])⟩

/-- C19: `alloc_matrix` adds one key that was absent, keeps every stored
matrix and the whole cache; `delete_matrix h` keeps the entries of every other
handle in both maps, and the counter; `compute_cca_qr h` keeps the counter, the
repository and the cache entries of every other handle. -/
theorem mutation_frames (K : Kernels) (s : State) :
    (∀ (mat : t_mat) (h : Nat) (s1 : State), alloc_matrix s mat = some (h, s1) →
      s.matrices.find h = none ∧ s1.matrices.find h = some (convert_matrix mat) ∧
      (∀ k, k ≠ h → s1.matrices.find k = s.matrices.find k) ∧
      (∀ k m, s.matrices.find k = some m → s1.matrices.find k = some m) ∧
      s1.qr_matrices = s.qr_matrices) ∧
    (∀ (h k : Nat), k ≠ h →
      (delete_matrix s h).matrices.find k = s.matrices.find k ∧
      (delete_matrix s h).qr_matrices.find k = s.qr_matrices.find k) ∧
    (∀ h : Nat, (delete_matrix s h).index = s.index) ∧
    (∀ h : Nat, (compute_cca_qr K s h).2.index = s.index ∧
      (compute_cca_qr K s h).2.matrices = s.matrices ∧
      ∀ k, k ≠ h → (compute_cca_qr K s h).2.qr_matrices.find k = s.qr_matrices.find k) := by
  refine ⟨?_, ?_, fun _ => rfl, ?_⟩
  · intro mat h s1 hr
    obtain ⟨_, _, hnone, rfl⟩ := alloc_matrix_sound s mat h s1 hr
    refine ⟨hnone, MatMap.insert_self _ _ _, fun k hk => MatMap.insert_other _ _ _ _ hk, ?_, rfl⟩
    intro k m hm
    have hk : k ≠ h := by
      intro hkh; subst hkh
      rw [show s.matrices.find k = s.matrices k from rfl, hnone] at hm
      cases hm
    exact (MatMap.insert_other _ _ _ _ hk).trans hm
  · intro h k hk
    exact ⟨MatMap.erase_other _ _ _ hk, MatMap.erase_other _ _ _ hk⟩
  · intro h
    refine ⟨(compute_cca_qr_frame K s h).1, (compute_cca_qr_frame K s h).2, ?_⟩
    intro k hk
    unfold compute_cca_qr
    split
    · rfl
    · exact MatMap.insert_other _ _ _ _ hk

/-- Allocation at the largest counter value keeps the live handle 1. -/
theorem mutation_frames_witness :
    ∃ (h : Nat) (s1 : State), alloc_matrix wrap_state sample_mat = some (h, s1) ∧
      wrap_state.matrices.find h = none ∧
      s1.matrices.find 1 = some (convert_matrix sample_mat) :=
  ⟨2, ⟨2, wrap_state.matrices.insert 2 (convert_matrix sample_mat), wrap_state.qr_matrices⟩, rfl,
    ((mutation_frames diagKernels wrap_state).1 sample_mat 2 _ rfl).1,
    ((mutation_frames diagKernels wrap_state).1 sample_mat 2 _ rfl).2.2.2.1 1 _ rfl⟩

/-! ## The row-major reading of `convert_matrix` -/

theorem foldl_range_invariant {α : Type} (f : α → Nat → α) (P : Nat → α → Prop) :
    ∀ (n : Nat) (a : α), P 0 a → (∀ i, i < n → ∀ b, P i b → P (i + 1) (f b i)) →
      P n ((List.range n).foldl f a) := by
  intro n
  induction n with
  | zero => intro a h0 _; exact h0
  | succ n ih =>
    intro a h0 hstep
    rw [List.range_succ, List.foldl_append]
    exact hstep n (Nat.lt_succ_self n) _
      (ih a h0 (fun i hi b hb => hstep i (Nat.lt_succ_of_lt hi) b hb))

theorem index_inj (R r c r1 c1 : Nat) (hr : r < R) (hr1 : r1 < R)
    (h : c1 * R + r1 = c * R + r) : c1 = c ∧ r1 = r := by
  have hR : 0 < R := by omega
  have h1 : (c1 * R + r1) / R = c1 := by
    rw [Nat.add_comm, Nat.add_mul_div_right _ _ hR, Nat.div_eq_of_lt hr1, Nat.zero_add]
  have h2 : (c * R + r) / R = c := by
    rw [Nat.add_comm, Nat.add_mul_div_right _ _ hR, Nat.div_eq_of_lt hr, Nat.zero_add]
  have hc : c1 = c := by rw [← h1, ← h2, h]
  subst hc
  exact ⟨rfl, by omega⟩

theorem MatrixXd.get_set (m : MatrixXd) (r c r1 c1 : Nat) (v : F64) :
    (m.set r c v).get r1 c1 =
      if c * m.rows + r = c1 * m.rows + r1 ∧ c * m.rows + r < m.data.length then v
      else m.get r1 c1 := by
  simp only [MatrixXd.get, MatrixXd.set, List.getD_eq_getElem?_getD, List.getElem?_set]
  by_cases h : c * m.rows + r = c1 * m.rows + r1
  · by_cases h2 : c * m.rows + r < m.data.length
    · have h3 : c1 * m.rows + r1 < m.data.length := h ▸ h2
      simp [h, h3]
    · have h3 : ¬ c1 * m.rows + r1 < m.data.length := h ▸ h2
      simp [h, h3, List.getElem?_eq_none (Nat.le_of_not_lt h3)]
  · simp [h]

theorem MatrixXd.set_dims (m : MatrixXd) (r c : Nat) (v : F64) :
    (m.set r c v).rows = m.rows ∧ (m.set r c v).cols = m.cols ∧
      (m.set r c v).data.length = m.data.length := by
  simp [MatrixXd.set]

theorem ConvertInv_inner (t : t_mat) (k : Nat) (hk : k < t.rows) (acc : MatrixXd × Nat)
    (h : ConvertInv t k 0 acc) :
    ConvertInv t (k + 1) 0
      ((List.range t.cols).foldl
        (fun (acc : MatrixXd × Nat) c => (acc.1.set k c (t.ptr acc.2), acc.2 + 1)) acc) := by
  have key := foldl_range_invariant
    (fun (acc : MatrixXd × Nat) c => (acc.1.set k c (t.ptr acc.2), acc.2 + 1))
    (fun j acc => ConvertInv t k j acc) t.cols acc h ?_
  · obtain ⟨h1, h2, h3, h4, h5⟩ := key
    refine ⟨by rw [h1]; ring, h2, h3, h4, ?_⟩
    intro r c hr hc hrc
    apply h5 r c hr hc
    rcases hrc with hrc | ⟨hrc, hc0⟩
    · by_cases hrk : r = k
      · right; exact ⟨hrk, hc⟩
      · left; omega
    · omega
  · intro j hj b ⟨h1, h2, h3, h4, h5⟩
    refine ⟨by simp only [h1]; ring, h2, h3, (MatrixXd.set_dims _ _ _ _).2.2.trans h4, ?_⟩
    intro r c hr hc hrc
    have hidx : j * t.rows + k < b.1.data.length := by
      rw [h4]
      calc j * t.rows + k < j * t.rows + t.rows := by omega
        _ = t.rows * (j + 1) := by ring
        _ ≤ t.rows * t.cols := Nat.mul_le_mul_left _ hj
    show (b.1.set k j (t.ptr b.2)).get r c = _
    rw [MatrixXd.get_set, h2]
    by_cases hsame : j * t.rows + k = c * t.rows + r
    · obtain ⟨hcj, hrk⟩ := index_inj t.rows k j r c hk hr hsame.symm
      subst hcj; subst hrk
      rw [if_pos ⟨hsame, hidx⟩, h1]
    · rw [if_neg (fun hh => hsame hh.1)]
      apply h5 r c hr hc
      rcases hrc with hrc | ⟨hrc, hcj⟩
      · left; exact hrc
      · right
        refine ⟨hrc, ?_⟩
        have : c ≠ j := by
          intro hcj2; subst hcj2; subst hrc; exact hsame rfl
        omega

theorem convert_matrix_inv (t : t_mat) :
    ConvertInv t t.rows 0
      ((List.range t.rows).foldl
        (fun (acc : MatrixXd × Nat) r =>
          (List.range t.cols).foldl
            (fun (acc : MatrixXd × Nat) c => (acc.1.set r c (t.ptr acc.2), acc.2 + 1))
            acc)
        (MatrixXd.resize default t.rows t.cols, 0)) := by
  apply foldl_range_invariant _ (fun k acc => ConvertInv t k 0 acc)
  · refine ⟨by simp, rfl, rfl, by simp [MatrixXd.resize], ?_⟩
    intro r c _ _ hrc
    omega
  · intro k hk b hb
    exact ConvertInv_inner t k hk b hb

theorem MatrixXd.get_ofFn (rows cols : Nat) (f : Nat → Nat → F64) (r c : Nat)
    (hr : r < rows) (hc : c < cols) : (MatrixXd.ofFn rows cols f).get r c = f r c := by
  have hidx : c * rows + r < rows * cols := by
    calc c * rows + r < c * rows + rows := by omega
      _ = rows * (c + 1) := by ring
      _ ≤ rows * cols := Nat.mul_le_mul_left _ hc
  have h1 : (c * rows + r) % rows = r := by
    rw [Nat.add_comm, Nat.add_mul_mod_self_right, Nat.mod_eq_of_lt hr]
  have h2 : (c * rows + r) / rows = c := by
    rw [Nat.add_comm, Nat.add_mul_div_right _ _ (by omega), Nat.div_eq_of_lt hr, Nat.zero_add]
  simp [MatrixXd.get, MatrixXd.ofFn, List.getD_eq_getElem?_getD, hidx, h1, h2]

theorem MatrixXd.eq_ofFn (m : MatrixXd) (f : Nat → Nat → F64)
    (hlen : m.data.length = m.rows * m.cols)
    (hget : ∀ r c, r < m.rows → c < m.cols → m.get r c = f r c) :
    m = MatrixXd.ofFn m.rows m.cols f := by
  obtain ⟨rows, cols, data⟩ := m
  simp only [MatrixXd.ofFn, MatrixXd.mk.injEq, true_and]
  simp only at hlen hget
  apply List.ext_getElem
  · simp [hlen]
  · intro i h1 h2
    rw [hlen] at h1
    have hR : 0 < rows := by
      rcases Nat.eq_zero_or_pos rows with h0 | h0
      · subst h0; simp at h1
      · exact h0
    have hc : i / rows < cols := by
      apply Nat.div_lt_of_lt_mul; exact h1
    have hg := hget (i % rows) (i / rows) (Nat.mod_lt _ hR) hc
    have hi : i / rows * rows + i % rows = i := Nat.div_add_mod' i rows
    simp only [MatrixXd.get, hi, List.getD_eq_getElem?_getD] at hg
    rw [List.getElem?_eq_getElem (by rw [hlen]; exact h1)] at hg
    simp only [Option.getD_some] at hg
    simp [hg]

theorem convert_matrix_eq (t : t_mat) :
    convert_matrix t = MatrixXd.ofFn t.rows t.cols (fun r c => t.ptr (r * t.cols + c)) := by
  obtain ⟨_, h2, h3, h4, h5⟩ := convert_matrix_inv t
  have h := MatrixXd.eq_ofFn (convert_matrix t) (fun r c => t.ptr (r * t.cols + c))
    (by rw [show (convert_matrix t).rows = t.rows from h2,
      show (convert_matrix t).cols = t.cols from h3]; exact h4)
    (by
      intro r c hr hc
      rw [show (convert_matrix t).rows = t.rows from h2] at hr
      rw [show (convert_matrix t).cols = t.cols from h3] at hc
      exact h5 r c hr hc (Or.inl hr))
  rw [show (convert_matrix t).rows = t.rows from h2,
    show (convert_matrix t).cols = t.cols from h3] at h
  exact h

/-- C13: `convert_matrix` builds a matrix with the descriptor's row and column
counts whose entry `(r, c)` is buffer element `r * cols + c`; each of the
first `rows * cols` buffer elements is an entry of the result, and the result
is the same for two buffers that agree on those elements. -/
theorem convert_matrix_row_major (t : t_mat) :
    (convert_matrix t).rows = t.rows ∧ (convert_matrix t).cols = t.cols ∧
    (convert_matrix t).data.length = t.rows * t.cols ∧
    (∀ r c, r < t.rows → c < t.cols → (convert_matrix t).get r c = t.ptr (r * t.cols + c)) ∧
    (∀ i, i < t.rows * t.cols → (convert_matrix t).get (i / t.cols) (i % t.cols) = t.ptr i) ∧
    (∀ t1 : t_mat, t1.rows = t.rows → t1.cols = t.cols →
      (∀ i, i < t.rows * t.cols → t1.ptr i = t.ptr i) → convert_matrix t1 = convert_matrix t) := by
  obtain ⟨_, h2, h3, h4, h5⟩ := convert_matrix_inv t
  have hget : ∀ r c, r < t.rows → c < t.cols →
      (convert_matrix t).get r c = t.ptr (r * t.cols + c) :=
    fun r c hr hc => h5 r c hr hc (Or.inl hr)
  refine ⟨h2, h3, h4, hget, ?_, ?_⟩
  · intro i hi
    have hC : 0 < t.cols := by
      rcases Nat.eq_zero_or_pos t.cols with h0 | h0
      · rw [h0] at hi; simp at hi
      · exact h0
    have hr : i / t.cols < t.rows := by
      apply Nat.div_lt_of_lt_mul; rw [Nat.mul_comm]; exact hi
    rw [hget _ _ hr (Nat.mod_lt _ hC), Nat.div_add_mod' i t.cols]
  · intro t1 hrows hcols hptr
    rw [convert_matrix_eq t1, convert_matrix_eq t, hrows, hcols]
    simp only [MatrixXd.ofFn, MatrixXd.mk.injEq, true_and]
    apply List.map_congr_left
    intro i hi
    have hi1 : i < t.rows * t.cols := List.mem_range.mp hi
    have hR : 0 < t.rows := by
      rcases Nat.eq_zero_or_pos t.rows with h0 | h0
      · rw [h0] at hi1; simp at hi1
      · exact h0
    apply hptr
    have hc : i / t.rows < t.cols := Nat.div_lt_of_lt_mul hi1
    have hr : i % t.rows < t.rows := Nat.mod_lt _ hR
    calc i % t.rows * t.cols + i / t.rows < i % t.rows * t.cols + t.cols := by omega
      _ = (i % t.rows + 1) * t.cols := by ring
      _ ≤ t.rows * t.cols := Nat.mul_le_mul_right _ hr

/-- Entry (1, 2) of the 2 by 3 sample is buffer element 5, which holds 6. -/
theorem convert_matrix_row_major_witness :
    (convert_matrix sample_mat).get 1 2 = F64.fin 6 :=
  (convert_matrix_row_major sample_mat).2.2.2.1 1 2 (by decide) (by decide)

/-! ## The minimum energy combination: whitening matrix and sign of the score -/

theorem fill_W_unit_vectors (K : Kernels) (l0 l1 : F64) :
    fill_W K [(l0, [F64.fin 1, F64.fin 0]), (l1, [F64.fin 0, F64.fin 1])]
        (MatrixXd.resize K.junk 2 2) =
      ⟨2, 2, [K.div (F64.fin 1) (K.sqrt l0), K.junk, K.div (F64.fin 0) (K.sqrt l1), K.junk]⟩ := by
  simp [fill_W, VectorXd.count, F64.isNonzero, MatrixXd.resize, MatrixXd.set, List.range,
    List.range.loop]

theorem whitening_signal_reference :
    whitening diagKernels signal_Y reference_X =
      ⟨2, 2, [F64.fin 1, F64.fin 0, F64.fin 0, F64.fin 0]⟩ := by
  simp [whitening, signal_Y, reference_X, matmul, matsub, MatrixXd.ofFn,
    MatrixXd.transpose, diagKernels, dot, MatrixXd.row, MatrixXd.col, MatrixXd.get, F64.mul,
    F64.div, F64.add, F64.neg, F64.signedInf, MatrixXd.diagonal, sort_eigens, fill_W,
    VectorXd.count, MatrixXd.resize, MatrixXd.identity, F64.sqrt, F64.isNonzero, MatrixXd.set,
    F64.abs, List.range, List.range.loop, F64.lt]
  norm_num

/-- C16 fails on the code: the loop that fills `W` runs over
`eigen.second.count()` rows, the number of non-zero entries of the
eigenvector, not over all its rows.  For the eigenvectors (1, 0) and (0, 1)
only row 0 of each column is written and row 1 keeps what `resize` left there,
whatever the kernels; for `signal_Y` and `reference_X`, where `Y1^T * Y1` is
the identity with eigenvalues 1 and 1, entry (1, 1) of `W` is the junk value 0
instead of 1 / sqrt 1 = 1. -/
theorem whitening_rows_not_written :
    (∀ (K : Kernels) (l0 l1 : F64),
      fill_W K [(l0, [F64.fin 1, F64.fin 0]), (l1, [F64.fin 0, F64.fin 1])]
          (MatrixXd.resize K.junk 2 2) =
        ⟨2, 2, [K.div (F64.fin 1) (K.sqrt l0), K.junk,
          K.div (F64.fin 0) (K.sqrt l1), K.junk]⟩) ∧
    whitening diagKernels signal_Y reference_X =
      ⟨2, 2, [F64.fin 1, F64.fin 0, F64.fin 0, F64.fin 0]⟩ ∧
    (whitening diagKernels signal_Y reference_X).get 1 1 = diagKernels.junk ∧
    (whitening diagKernels signal_Y reference_X).get 1 1 ≠
      diagKernels.div (F64.fin 1) (diagKernels.sqrt (F64.fin 1)) := by
  refine ⟨fill_W_unit_vectors, whitening_signal_reference, ?_, ?_⟩
  · rw [whitening_signal_reference]; rfl
  · have h : diagKernels.div (F64.fin 1) (diagKernels.sqrt (F64.fin 1)) = F64.fin 1 := by
      simp [diagKernels, F64.div, F64.sqrt]
      norm_num
    rw [whitening_signal_reference, h]
    simp [MatrixXd.get]

theorem foldl_range_preserves {α : Type} (f : α → Nat → α) (P : α → Prop)
    (hstep : ∀ a i, P a → P (f a i)) : ∀ (l : List Nat) (a : α), P a → P (l.foldl f a) := by
  intro l
  induction l with
  | nil => intro a h; exact h
  | cons x xs ih => intro a h; exact ih _ (hstep a x h)

theorem power_nonneg_or_nan (K : Kernels) (hK : SignLaws K) (Y X : MatrixXd) :
    NonNegOrNaN (minimum_energy_combination_power K Y X) := by
  obtain ⟨hpow, hadd, hdiv⟩ := hK
  unfold minimum_energy_combination_power
  apply hdiv
  apply foldl_range_preserves _ NonNegOrNaN
  · intro p l hp
    apply foldl_range_preserves _ NonNegOrNaN
    · intro p k hp
      exact hadd _ _ hp (hpow _)
    · exact hp
  · right; simp [F64.le]

theorem diagKernels_signLaws : SignLaws diagKernels := by
  refine ⟨?_, ?_, ?_⟩
  · intro a
    cases a with
    | nan => left; simp [diagKernels, F64.abs, F64.mul]
    | ninf => right; simp [diagKernels, F64.abs, F64.mul, F64.le]
    | pinf => right; simp [diagKernels, F64.abs, F64.mul, F64.le]
    | fin q =>
      right
      simp only [diagKernels, F64.abs, F64.mul, if_true, F64.le, decide_eq_true_eq]
      positivity
  · intro a b ha hb
    rcases ha with ha | ha <;> rcases hb with hb | hb
    · left; subst ha; cases b <;> rfl
    · left; subst ha; cases b <;> rfl
    · left; subst hb; cases a <;> rfl
    · cases a <;> cases b <;> simp_all [diagKernels, F64.add, F64.le, NonNegOrNaN]
      positivity
  · intro a m n ha
    have hmn : (0 : ℚ) ≤ (m : ℚ) * (n : ℚ) := by positivity
    rcases ha with ha | ha
    · left; subst ha; rfl
    · cases a with
      | nan => left; rfl
      | ninf => simp [F64.le] at ha
      | pinf =>
        right
        simp [diagKernels, F64.mul, F64.div, F64.le, not_lt.mpr hmn]
      | fin q =>
        have hq : 0 ≤ q := by simpa [F64.le] using ha
        by_cases h0 : (m : ℚ) * (n : ℚ) = 0
        · by_cases hq0 : q = 0
          · left; simp [diagKernels, F64.mul, F64.div, F64.signedInf, h0, hq0]
          · right
            have hqpos : 0 < q := lt_of_le_of_ne hq (Ne.symm hq0)
            simp [diagKernels, F64.mul, F64.div, F64.signedInf, h0, hq0, hqpos, F64.le]
        · right
          simp only [diagKernels, F64.mul, F64.div, h0, if_false, F64.le, decide_eq_true_eq]
          positivity

theorem power_signal_reference :
    minimum_energy_combination_power diagKernels signal_Y reference_X = F64.fin 0 := by
  unfold minimum_energy_combination_power
  rw [whitening_signal_reference]
  simp [signal_Y, reference_X, matmul, MatrixXd.ofFn, diagKernels, dot, MatrixXd.row,
    MatrixXd.col, MatrixXd.get, F64.mul, F64.div, F64.add, F64.abs, List.range,
    List.range.loop]

/-- C11: with kernels that obey the IEEE sign rules, whenever
`minimum_energy_combination_power` returns a number (a double that is not
NaN), that number compares `>= 0`; and no returned value, NaN included,
compares `< 0`. -/
theorem mec_score_nonneg (K : Kernels) (hK : SignLaws K) (Y X : MatrixXd) :
    (minimum_energy_combination_power K Y X ≠ F64.nan →
      F64.le (F64.fin 0) (minimum_energy_combination_power K Y X) = true) ∧
    F64.lt (minimum_energy_combination_power K Y X) (F64.fin 0) = false := by
  have h := power_nonneg_or_nan K hK Y X
  constructor
  · intro hne
    rcases h with h | h
    · exact absurd h hne
    · exact h
  · rcases h with h | h
    · rw [h]; rfl
    · exact F64.lt_false_of_le _ _ h

/-- The score of `signal_Y` against `reference_X` is the number 0. -/
theorem mec_score_nonneg_witness :
    minimum_energy_combination_power diagKernels signal_Y reference_X ≠ F64.nan ∧
      F64.le (F64.fin 0) (minimum_energy_combination_power diagKernels signal_Y reference_X) =
        true :=
  ⟨by rw [power_signal_reference]; simp,
    (mec_score_nonneg diagKernels diagKernels_signLaws signal_Y reference_X).1
      (by rw [power_signal_reference]; simp)⟩

/-! ## Column means and the conversion to `float` -/

theorem log_two_example : Int.log 2 |(16777217 : ℚ)| = 24 := by
  rw [abs_of_pos (by norm_num), Int.log_of_one_le_right _ (by norm_num)]
  have h : ⌊(16777217 : ℚ)⌋₊ = 16777217 := Nat.floor_natCast 16777217
  rw [h]
  have : Nat.log 2 16777217 = 24 := by
    rw [Nat.log_eq_iff (by norm_num)]
    norm_num
  rw [this]
  rfl

theorem toFloat32_example : F64.toFloat32 (F64.fin 16777217) = F64.fin 16777216 := by
  have hfloor : ⌊(16777217 : ℚ) / 2⌋ = 8388608 := by
    rw [Int.floor_eq_iff]; norm_num
  simp only [F64.toFloat32, log_two_example]
  norm_num [round_half_even, hfloor]

theorem column_means_wide :
    column_means floatKernels wide_mat = [F64.fin 16777216] := by
  have h : column_means floatKernels wide_mat =
      [F64.toFloat32 (F64.fin 16777217)] := by
    simp [column_means, wide_mat, floatKernels, diagKernels, MatrixXd.get, F64.add, F64.div,
      List.range, List.range.loop]
  rw [h, toFloat32_example]

/-- C12 fails on the code: `column_means` passes each mean through
`static_cast<float>`.  For the 1 by 1 matrix with entry 16777217 the sum and
the quotient by the row count are exactly 16777217, the arithmetic mean, but
the function returns 16777216, the nearest `float`. -/
theorem column_means_rounds_to_float :
    floatKernels.div (floatKernels.add (F64.fin 0) (wide_mat.get 0 0))
        (floatKernels.ofNat wide_mat.rows) = F64.fin 16777217 ∧
    column_means floatKernels wide_mat = [F64.fin 16777216] ∧
    column_means floatKernels wide_mat ≠ [F64.fin 16777217] := by
  refine ⟨?_, column_means_wide, ?_⟩
  · simp [wide_mat, floatKernels, diagKernels, MatrixXd.get, F64.add, F64.div]
  · rw [column_means_wide]
    simp

/-! ## The two operands of the correlation in either order -/

theorem dot_comm (K : Kernels) (hmul : ∀ a b, K.mul a b = K.mul b a) (u v : VectorXd) :
    dot K u v = dot K v u := by
  unfold dot
  rw [List.zipWith_comm_of_comm K.mul hmul]

theorem MatrixXd.transpose_row (A : MatrixXd) (c : Nat) (hc : c < A.cols) :
    A.transpose.row c = A.col c := by
  unfold MatrixXd.row MatrixXd.col
  have hcols : A.transpose.cols = A.rows := rfl
  rw [hcols]
  apply List.map_congr_left
  intro k hk
  exact MatrixXd.get_ofFn A.cols A.rows _ c k hc (List.mem_range.mp hk)

theorem matmul_transpose (K : Kernels) (hmul : ∀ a b, K.mul a b = K.mul b a)
    (A B : MatrixXd) :
    (matmul K A.transpose B).transpose = matmul K B.transpose A := by
  have h1 : (matmul K A.transpose B).transpose =
      MatrixXd.ofFn B.cols A.cols (fun r c => (matmul K A.transpose B).get c r) := rfl
  have h2 : matmul K B.transpose A =
      MatrixXd.ofFn B.cols A.cols (fun r c => dot K (B.transpose.row r) (A.col c)) := rfl
  rw [h1, h2]
  simp only [MatrixXd.ofFn, MatrixXd.mk.injEq, true_and]
  apply List.map_congr_left
  intro i hi
  have hi1 : i < B.cols * A.cols := List.mem_range.mp hi
  have hB : 0 < B.cols := by
    rcases Nat.eq_zero_or_pos B.cols with h0 | h0
    · rw [h0] at hi1; simp at hi1
    · exact h0
  have hr : i % B.cols < B.cols := Nat.mod_lt _ hB
  have hc : i / B.cols < A.cols := Nat.div_lt_of_lt_mul hi1
  have h3 : (matmul K A.transpose B).get (i / B.cols) (i % B.cols) =
      dot K (A.transpose.row (i / B.cols)) (B.col (i % B.cols)) :=
    MatrixXd.get_ofFn A.cols B.cols _ _ _ hc hr
  show (matmul K A.transpose B).get (i / B.cols) (i % B.cols) =
    dot K (B.transpose.row (i % B.cols)) (A.col (i / B.cols))
  rw [h3, MatrixXd.transpose_row A _ hc, MatrixXd.transpose_row B _ hr]
  exact dot_comm K hmul _ _

theorem retrieve_cca_qr_matrix_value (K : Kernels) (s : State) (t : t_mat) :
    (retrieve_cca_qr_matrix K s t).1 =
      if t.id > 0 then
        match s.qr_matrices t.id with
        | some q => Except.ok q
        | none =>
          match s.matrices t.id with
          | none => Except.error Exn.not_found
          | some m => Except.ok (cca_qr K m)
      else Except.ok (cca_qr K (convert_matrix t)) := by
  unfold retrieve_cca_qr_matrix
  by_cases hid : t.id > 0
  · simp only [hid, if_true, MatMap.find]
    cases hq : s.qr_matrices t.id with
    | some q => rfl
    | none =>
      simp only [retrieve_allocated_matrix, MatMap.find]
      cases s.matrices t.id <;> rfl
  · simp only [hid, if_false]

theorem retrieve_cca_qr_matrix_after (K : Kernels) (s : State) (x y : t_mat) :
    (retrieve_cca_qr_matrix K (retrieve_cca_qr_matrix K s x).2 y).1 =
      (retrieve_cca_qr_matrix K s y).1 := by
  rcases retrieve_cca_qr_matrix_cache K s x with he | ⟨hid, hnone, q, he⟩
  · rw [he]
  · have hm := (retrieve_cca_qr_matrix_frame K s x).2
    have hv := retrieve_cca_qr_matrix_value K s x
    rw [retrieve_cca_qr_matrix_value K _ y, retrieve_cca_qr_matrix_value K s y, hm]
    by_cases hidy : y.id > 0
    · simp only [hidy, if_true]
      by_cases hy : y.id = x.id
      · rw [hy, he, hnone]
        simp only [MatMap.insert_self]
        rw [if_pos hid, hnone] at hv
        cases hmx : s.matrices x.id with
        | none =>
          exfalso
          have hu : Unknown s x := ⟨hid, hnone, hmx⟩
          rcases retrieve_cca_qr_matrix_cases K s x with ⟨_, hr⟩ | ⟨hnu, _⟩
          · rw [hr] at he
            have := congrArg (fun st => st.qr_matrices x.id) he
            simp [MatMap.insert, hnone] at this
          · exact hnu hu
        | some m =>
          have hst : (retrieve_cca_qr_matrix K s x).2 =
              { s with qr_matrices := s.qr_matrices.insert x.id (cca_qr K m) } := by
            simp [retrieve_cca_qr_matrix, hid, MatMap.find, hnone, retrieve_allocated_matrix, hmx]
          rw [hst] at he
          have := congrArg (fun st => st.qr_matrices x.id) he
          simp only [MatMap.insert_self, Option.some.injEq] at this
          rw [← this]
      · rw [he]
        simp only [MatMap.insert_other _ _ _ _ hy]
    · simp only [hidy, if_false]

/-! ## Operands with different row counts -/

theorem centerize_rows (K : Kernels) (mat : MatrixXd) : (centerize K mat).rows = mat.rows := by
  have inner : ∀ (r : Nat) (l : List Nat) (m : MatrixXd), m.rows = mat.rows →
      (l.foldl (fun m c =>
        m.set r c (K.sub (m.get r c) ((column_means K mat).getD c default))) m).rows =
        mat.rows := by
    intro r l m hm
    exact foldl_range_preserves
      (fun m c => m.set r c (K.sub (m.get r c) ((column_means K mat).getD c default)))
      (fun m => m.rows = mat.rows) (fun a _ ha => ha) l m hm
  exact foldl_range_preserves
    (fun m r => (List.range m.cols).foldl
      (fun m c => m.set r c (K.sub (m.get r c) ((column_means K mat).getD c default))) m)
    (fun m => m.rows = mat.rows) (fun a r ha => inner r _ a ha) (List.range mat.rows) mat rfl

theorem economy_qr_rows (K : Kernels) (mat : MatrixXd) :
    (economy_qr K mat).rows = (K.matrixQ mat).rows := by
  show (if mat.rows > mat.cols then
    matmul K (K.matrixQ mat) (MatrixXd.identity mat.rows mat.cols) else K.matrixQ mat).rows = _
  split <;> rfl

theorem cca_qr_rows (K : Kernels) (hQ : ∀ m, (K.matrixQ m).rows = m.rows) (mat : MatrixXd) :
    (cca_qr K mat).rows = mat.rows := by
  unfold cca_qr
  rw [economy_qr_rows, hQ, centerize_rows]

theorem cca_svd_none_iff (K : Kernels) (qx qy : MatrixXd) :
    cca_svd K qx qy = none ↔ qx.rows ≠ qy.rows := by
  have hc : qx.transpose.cols = qx.rows := rfl
  unfold cca_svd product
  rw [hc]
  by_cases h : qx.rows = qy.rows <;> simp [h]

theorem canonical_correlation_mismatch (K : Kernels) (s : State) (x y : t_mat)
    (qx qy : MatrixXd) (hx : (retrieve_cca_qr_matrix K s x).1 = Except.ok qx)
    (hy : (retrieve_cca_qr_matrix K (retrieve_cca_qr_matrix K s x).2 y).1 = Except.ok qy)
    (hrows : qx.rows ≠ qy.rows) :
    (canonical_correlation K s x y).1 = Except.error Fault.invalid_product := by
  rw [canonical_correlation_result, hx]
  dsimp only
  rw [hy]
  dsimp only
  rw [(cca_svd_none_iff K qx qy).mpr hrows]

theorem canonical_correlation_inline_mismatch (K : Kernels)
    (hQ : ∀ m, (K.matrixQ m).rows = m.rows) (s : State) (x y : t_mat)
    (hx : x.id = 0) (hy : y.id = 0) (hrows : x.rows ≠ y.rows) :
    canonical_correlation K s x y = (Except.error Fault.invalid_product, s) := by
  have h1 : retrieve_cca_qr_matrix K s x = (Except.ok (cca_qr K (convert_matrix x)), s) := by
    simp [retrieve_cca_qr_matrix, hx]
  have h2 : retrieve_cca_qr_matrix K s y = (Except.ok (cca_qr K (convert_matrix y)), s) := by
    simp [retrieve_cca_qr_matrix, hy]
  have hne : (cca_qr K (convert_matrix x)).rows ≠ (cca_qr K (convert_matrix y)).rows := by
    have hx1 : (convert_matrix x).rows = x.rows := (convert_matrix_inv x).2.1
    have hy1 : (convert_matrix y).rows = y.rows := (convert_matrix_inv y).2.1
    rw [cca_qr_rows K hQ, cca_qr_rows K hQ, hx1, hy1]
    exact hrows
  have hsnd : (canonical_correlation K s x y).2 = s := canonical_correlation_inline K s x y hx hy
  have hfst := canonical_correlation_mismatch K s x y _ _ (by rw [h1]) (by rw [h1, h2]) hne
  exact Prod.ext hfst hsnd

/-- C8 fails on the code: `canonical_correlation` passes the two QR factors to
`cca_svd` without comparing their row counts.  Whenever the two factors differ
in their row counts, the product `qx.transpose() * qy` fails Eigen's shape
assertion and the call ends in `Fault.invalid_product`: no exception reaches
the caller.  For the inline descriptors `sample_mat` (2 rows) and
`sample_mat3` (3 rows) that is the outcome from process start, and for every
pair of inline descriptors with different row counts when the Q factor has as
many rows as its matrix. -/
theorem correlation_row_mismatch_unchecked :
    (∀ (K : Kernels) (s : State) (x y : t_mat) (qx qy : MatrixXd),
      (retrieve_cca_qr_matrix K s x).1 = Except.ok qx →
      (retrieve_cca_qr_matrix K (retrieve_cca_qr_matrix K s x).2 y).1 = Except.ok qy →
      qx.rows ≠ qy.rows →
      (canonical_correlation K s x y).1 = Except.error Fault.invalid_product) ∧
    (∀ (K : Kernels), (∀ m, (K.matrixQ m).rows = m.rows) → ∀ (s : State) (x y : t_mat),
      x.id = 0 → y.id = 0 → x.rows ≠ y.rows →
      canonical_correlation K s x y = (Except.error Fault.invalid_product, s)) ∧
    (convert_matrix sample_mat).rows = 2 ∧ (convert_matrix sample_mat3).rows = 3 ∧
    canonical_correlation diagKernels State.init sample_mat sample_mat3 =
      (Except.error Fault.invalid_product, State.init) ∧
    (∀ e, (canonical_correlation diagKernels State.init sample_mat sample_mat3).1 ≠
      Except.error (Fault.thrown e)) := by
  have hconc : canonical_correlation diagKernels State.init sample_mat sample_mat3 =
      (Except.error Fault.invalid_product, State.init) :=
    canonical_correlation_inline_mismatch diagKernels (fun _ => rfl) State.init sample_mat
      sample_mat3 rfl rfl (by decide)
  refine ⟨canonical_correlation_mismatch, canonical_correlation_inline_mismatch, by decide,
    by decide, hconc, ?_⟩
  intro e h
  rw [hconc] at h
  cases h

end SharpBCI
